import Mathlib

/-!
Verification of core components of the block2 DMRG quantum-chemistry kernel
(`quantum.hpp`): the LIFO stack allocator, the packed quantum-number label
algebra, Wigner coefficients, state/sparse-block index tables, the symbolic
operator expression algebra, the sparse numeric kernels and the QCMPO
operator-name layout.

Conventions of the embedding:
* 32-bit unsigned integers become `Nat` values kept below `2^32`; wrap-around
  is written with an explicit `% 2^32`, `~x` becomes `2^32 - 1 - x`, and the
  bitwise operators `&&&`, `|||`, `^^^`, `<<<`, `>>>` are used literally.
* C++ `double` scalars become `ℚ` (exact scalars; the claims under study are
  about control flow and structural equalities, not rounding).  The scalars of
  the SU(2) MPO builder, which contain `sqrt(3)`, are modelled exactly in the
  ring `ℚ[√3]` as pairs `(a, b)` standing for `a + b·√3`.
* Fatal paths (failed assertions, `print_trace` aborts) are modelled by
  `Option`: `none` is the abort.
* The extended-precision square-root-of-factorial table of `CG` is a
  parameter `sqrtFact : ℕ → ℚ` of the coefficient functions; all control flow
  of those functions is independent of its values.
-/

set_option maxRecDepth 4000

namespace Block2

/-! ## StackAllocator (quantum.hpp lines 75-112)

`T *allocate(size_t n)` : asserts `shift == 0`; fails when `used + n >= size`;
otherwise returns `data + (used += n) - n`, i.e. the old cursor.
`void deallocate(void *ptr, size_t n)` : returns immediately when `n == 0`;
takes the fatal "deallocation not happening in reverse order" path when
`used < n || ptr != data + used - n`; otherwise `used -= n`.

Pointers are modelled as offsets from `data`. -/
structure StackAllocator where
  size : Nat
  used : Nat
  shift : Nat
  deriving DecidableEq, Repr

def StackAllocator.allocate (s : StackAllocator) (n : Nat) :
    Option (Nat × StackAllocator) :=
  if s.shift ≠ 0 then none
  else if s.used + n ≥ s.size then none
  else some (s.used, { s with used := s.used + n })

def StackAllocator.deallocate (s : StackAllocator) (ptr n : Nat) :
    Option StackAllocator :=
  if n = 0 then some s
  else if s.used < n ∨ ptr ≠ s.used - n then none
  else some { s with used := s.used - n }

/-- Allocating blocks of sizes 10, 20, 30 from a fresh arena and then
deallocating the size-10 block (at offset 0) first, out of LIFO order. -/
def lifoScenario : Option StackAllocator := do
  let s0 : StackAllocator := ⟨100, 0, 0⟩
  let (p1, s1) ← s0.allocate 10
  let (_, s2) ← s1.allocate 20
  let (_, s3) ← s2.allocate 30
  s3.deallocate p1 10

/-! ## SpinLabel (quantum.hpp lines 600-702)

`struct SpinLabel { uint32_t data; ... }` packing particle number `n`
(signed, bits 24-31), `twos_low` (bits 16-23), `twos` (bits 8-15) and the
point-group irrep `pg` (bits 0-7).  `data` is a `Nat` kept below `2^32`;
unsigned wrap-around is written `% 2^32`, `~x` is `2^32 - 1 - x % 2^32`, and
32-bit unsigned subtraction is `sub32`. -/
def lnot32 (x : ℕ) : ℕ := 2 ^ 32 - 1 - x % 2 ^ 32

def sub32 (a b : ℕ) : ℕ := (a % 2 ^ 32 + (2 ^ 32 - b % 2 ^ 32)) % 2 ^ 32

structure SpinLabel where
  data : ℕ
  deriving DecidableEq, Repr

namespace SpinLabel

/-- `SpinLabel(int n, int twos_low, int twos, int pg)`:
`data = (uint32_t)((n << 24) | (twos_low << 16) | (twos << 8) | pg)`.
`n` may be negative (two's complement in the top byte); the other fields are
non-negative at every call site. -/
def mk4 (n : ℤ) (twos_low twos pg : ℕ) : SpinLabel :=
  ⟨(n * 2 ^ 24 % 2 ^ 32).toNat ||| twos_low <<< 16 ||| twos <<< 8 ||| pg⟩

/-- `SpinLabel(int n, int twos, int pg)` (twos_low = twos). -/
def mk3 (n : ℤ) (twos pg : ℕ) : SpinLabel := mk4 n twos twos pg

/-- `int n() const { return (int)(((int32_t)data) >> 24); }` (arithmetic
shift: the top byte read as a signed value). -/
def n (q : SpinLabel) : ℤ :=
  let t : ℕ := q.data / 2 ^ 24 % 2 ^ 8
  if t < 128 then (t : ℤ) else (t : ℤ) - 256

/-- `int twos() const { return (int)(int16_t)((data >> 8) & 0xFFU); }` -/
def twos (q : SpinLabel) : ℕ := q.data / 2 ^ 8 % 2 ^ 8

/-- `int twos_low() const { return (int)(int16_t)((data >> 16) & 0xFFU); }` -/
def twos_low (q : SpinLabel) : ℕ := q.data / 2 ^ 16 % 2 ^ 8

/-- `int pg() const { return (int)(data & 0xFFU); }` -/
def pg (q : SpinLabel) : ℕ := q.data % 2 ^ 8

/-- `void set_twos_low(int twos)`:
`data = (data & (~0xFF0000U)) | ((uint32_t)((twos & 0xFFU) << 16))`. -/
def set_twos_low (q : SpinLabel) (t : ℕ) : SpinLabel :=
  ⟨q.data &&& 0xFF00FFFF ||| (t &&& 0xFF) <<< 16⟩

/-- `operator-`:
`(data & 0xFFFFFFU) | (((~data) + (1 << 24)) & (~0xFFFFFFU))`. -/
def neg (q : SpinLabel) : SpinLabel :=
  ⟨q.data &&& 0xFFFFFF ||| (lnot32 q.data + 2 ^ 24) % 2 ^ 32 &&& 0xFF000000⟩

instance : Neg SpinLabel := ⟨neg⟩

/-- `operator+`: packed-field addition (particle numbers add, point groups
XOR) combined with the bit-trick absolute-difference computation of the
coupled spin range `[|s1-s2|, s1+s2]`. -/
def add (a b : SpinLabel) : SpinLabel :=
  let add_data := ((a.data &&& 0xFF00FF00) + (b.data &&& 0xFF00FF00)) % 2 ^ 32 |||
    ((a.data &&& 0xFF) ^^^ (b.data &&& 0xFF))
  let sub_lr0 := sub32 ((a.data &&& 0xFF00) <<< 8) (b.data &&& 0xFF0000)
  let sub_lr := ((sub_lr0 >>> 7 + sub_lr0) % 2 ^ 32 ^^^ sub_lr0 >>> 7) &&& 0xFF0000
  let sub_rl0 := sub32 ((b.data &&& 0xFF00) <<< 8) (a.data &&& 0xFF0000)
  let sub_rl := ((sub_rl0 >>> 7 + sub_rl0) % 2 ^ 32 ^^^ sub_rl0 >>> 7) &&& 0xFF0000
  ⟨add_data ||| min sub_lr sub_rl⟩

instance : Add SpinLabel := ⟨add⟩

instance : Sub SpinLabel := ⟨fun a b => a + (-b)⟩

/-- `operator[](int i)`:
`((data + (i << 17)) & (~0x00FF00U)) | (((data + (i << 17)) & 0xFF0000U) >> 8)`. -/
def idx (q : SpinLabel) (i : ℕ) : SpinLabel :=
  let x := (q.data + i <<< 17) % 2 ^ 32
  ⟨x &&& 0xFFFF00FF ||| (x &&& 0xFF0000) >>> 8⟩

/-- `int count() const { return (int)(((data >> 9) - (data >> 17)) & 0x7FU) + 1; }`
(the unsigned subtraction never wraps since `data >> 9 ≥ data >> 17`). -/
def count (q : SpinLabel) : ℕ := ((q.data >>> 9 - q.data >>> 17) &&& 0x7F) + 1

/-- `int find(SpinLabel x)`: multiplicity index of `x` within the coupled
range, `-1` when absent. -/
def find (q x : SpinLabel) : ℤ :=
  if (q.data ^^^ x.data) &&& 0xFF0000FF ≠ 0 ∨ sub32 x.data q.data &&& 0x100 ≠ 0 ∨
      x.twos < q.twos_low ∨ x.twos > q.twos then -1
  else ((sub32 x.data q.data &&& 0xFF00) >>> 9 : ℕ)

/-- `get_ket()`: `(data & 0xFF00FFFFU) | ((data & 0xFF00U) << 8)`. -/
def get_ket (q : SpinLabel) : SpinLabel :=
  ⟨q.data &&& 0xFF00FFFF ||| (q.data &&& 0xFF00) <<< 8⟩

/-- `get_bra(SpinLabel dq)`. -/
def get_bra (q dq : SpinLabel) : SpinLabel :=
  ⟨((q.data &&& 0xFF000000) + (dq.data &&& 0xFF000000)) % 2 ^ 32 |||
    (q.data &&& 0xFF0000) >>> 8 ||| q.data &&& 0xFF0000 |||
    ((q.data &&& 0xFF) ^^^ (dq.data &&& 0xFF))⟩

end SpinLabel

/-- `static bool CG::triangle(int tja, int tjb, int tjc)`:
`!((tja + tjb + tjc) & 1) && tjc <= tja + tjb && tjc >= abs(tja - tjb)`. -/
def CG.triangle (tja tjb tjc : ℤ) : Bool :=
  (tja + tjb + tjc) % 2 == 0 && tjc ≤ tja + tjb && tjc ≥ |tja - tjb|

/-- `SpinLabel combine(SpinLabel bra, SpinLabel ket)`: returns the sentinel
`0xFFFFFFFF` when the CG triangle rule fails. -/
def SpinLabel.combine (q bra ket : SpinLabel) : SpinLabel :=
  let ket' := ket.set_twos_low bra.twos
  if ket'.get_bra q ≠ bra ∨ ¬CG.triangle (ket'.twos : ℤ) (q.twos : ℤ) (bra.twos : ℤ)
  then ⟨0xFFFFFFFF⟩ else ket'

/-! ### Closed forms for canonical labels

`mkData nb tl t g` is the packed word with byte fields `nb` (particle number
byte), `tl` (twos_low), `t` (twos), `g` (pg). -/
def mkData (nb tl t g : ℕ) : ℕ := nb * 2 ^ 24 + tl * 2 ^ 16 + t * 2 ^ 8 + g

/-! ## CG coefficients (quantum.hpp lines 428-549)

The `long double` square-root-factorial table `sqrt_fact` becomes a parameter
`sf : ℤ → ℚ`; every scalar operation is carried out exactly in `ℚ`.  The
selection-rule control flow (the subject of the claims) is independent of
`sf`.  C++ `x >> 1` on an `int` is the floor division `x / 2` of `ℤ`, `x & 1`
is `x % 2`, and `((x & 2) ? -1 : 1)` is `signBit2 x`. -/
/-- `((x & 2) ? -1 : 1)` for a C++ `int x`. -/
def signBit2 (x : ℤ) : ℚ := if x % 4 ≥ 2 then -1 else 1

/-- `((x & 1) ? -1 : 1)` for a C++ `int x`. -/
def signOdd (x : ℤ) : ℚ := if x % 2 = 1 then -1 else 1

namespace CG

def sqrt_delta (sf : ℤ → ℚ) (tja tjb tjc : ℤ) : ℚ :=
  sf ((tja + tjb - tjc) / 2) * sf ((tja - tjb + tjc) / 2) *
    sf ((-tja + tjb + tjc) / 2) / sf ((tja + tjb + tjc + 2) / 2)

/-- `long double wigner_3j(int tja, ..., int tmc)` (quantum.hpp 463-490). -/
def wigner_3j (sf : ℤ → ℚ) (tja tjb tjc tma tmb tmc : ℤ) : ℚ :=
  if tma + tmb + tmc ≠ 0 ∨ ¬triangle tja tjb tjc ∨ (tja + tma) % 2 ≠ 0 ∨
      (tjb + tmb) % 2 ≠ 0 ∨ (tjc + tmc) % 2 ≠ 0 then 0
  else
    let alpha1 := (tjb - tjc - tma) / 2
    let alpha2 := (tja - tjc + tmb) / 2
    let beta1 := (tja + tjb - tjc) / 2
    let beta2 := (tja - tma) / 2
    let beta3 := (tjb + tmb) / 2
    let max_alpha := max 0 (max alpha1 alpha2)
    let min_beta := min beta1 (min beta2 beta3)
    if max_alpha > min_beta then 0
    else
      let factor : ℚ :=
        signBit2 (tja - tjb - tmc) * signOdd max_alpha *
          sqrt_delta sf tja tjb tjc * sf ((tja + tma) / 2) * sf ((tja - tma) / 2) *
          sf ((tjb + tmb) / 2) * sf ((tjb - tmb) / 2) * sf ((tjc + tmc) / 2) *
          sf ((tjc - tmc) / 2)
      (List.range ((min_beta - max_alpha).toNat + 1)).foldl
        (fun r k =>
          let t := max_alpha + (k : ℤ)
          let rst := sf t * sf (t - alpha1) * sf (t - alpha2) * sf (beta1 - t) *
            sf (beta2 - t) * sf (beta3 - t)
          r + (-1) ^ k * factor / (rst * rst)) 0

/-- `long double wigner_6j(int tja, ..., int tjf)` (quantum.hpp 493-522). -/
def wigner_6j (sf : ℤ → ℚ) (tja tjb tjc tjd tje tjf : ℤ) : ℚ :=
  if ¬triangle tja tjb tjc ∨ ¬triangle tja tje tjf ∨ ¬triangle tjd tjb tjf ∨
      ¬triangle tjd tje tjc then 0
  else
    let alpha1 := (tja + tjb + tjc) / 2
    let alpha2 := (tja + tje + tjf) / 2
    let alpha3 := (tjd + tjb + tjf) / 2
    let alpha4 := (tjd + tje + tjc) / 2
    let beta1 := (tja + tjb + tjd + tje) / 2
    let beta2 := (tjb + tjc + tje + tjf) / 2
    let beta3 := (tja + tjc + tjd + tjf) / 2
    let max_alpha := max alpha1 (max alpha2 (max alpha3 alpha4))
    let min_beta := min beta1 (min beta2 beta3)
    if max_alpha > min_beta then 0
    else
      let factor : ℚ :=
        signOdd max_alpha * sqrt_delta sf tja tjb tjc * sqrt_delta sf tja tje tjf *
          sqrt_delta sf tjd tjb tjf * sqrt_delta sf tjd tje tjc
      (List.range ((min_beta - max_alpha).toNat + 1)).foldl
        (fun r k =>
          let t := max_alpha + (k : ℤ)
          let rst := sf (t - alpha1) * sf (t - alpha2) * sf (t - alpha3) *
            sf (t - alpha4) * sf (beta1 - t) * sf (beta2 - t) * sf (beta3 - t)
          r + (-1) ^ k * factor * sf (t + 1) * sf (t + 1) / (rst * rst)) 0

/-- `long double wigner_9j(int tja, ..., int tji)` (quantum.hpp 525-543). -/
def wigner_9j (sf : ℤ → ℚ) (tja tjb tjc tjd tje tjf tjg tjh tji : ℤ) : ℚ :=
  if ¬triangle tja tjb tjc ∨ ¬triangle tjd tje tjf ∨ ¬triangle tjg tjh tji ∨
      ¬triangle tja tjd tjg ∨ ¬triangle tjb tje tjh ∨ ¬triangle tjc tjf tji then 0
  else
    let alpha1 := |tja - tji|
    let alpha2 := |tjd - tjh|
    let alpha3 := |tjb - tjf|
    let beta1 := tja + tji
    let beta2 := tjd + tjh
    let beta3 := tjb + tjf
    let max_alpha := max alpha1 (max alpha2 alpha3)
    let min_beta := min beta1 (min beta2 beta3)
    let r := (List.range ((min_beta - max_alpha) / 2 + 1).toNat).foldl
      (fun r k =>
        let tg := max_alpha + 2 * (k : ℤ)
        r + ((tg : ℚ) + 1) * wigner_6j sf tja tjb tjc tjf tji tg *
          wigner_6j sf tjd tje tjf tjb tg tjh *
          wigner_6j sf tjg tjh tji tg tja tjd) 0
    signOdd max_alpha * r

/-- `long double racah(int ta, ..., int tf)` (quantum.hpp 545-548). -/
def racah (sf : ℤ → ℚ) (ta tb tc td te tf : ℤ) : ℚ :=
  signBit2 (ta + tb + tc + td) * wigner_6j sf ta tb te td tc tf

end CG

/-! ## Symbolic operator algebra (quantum.hpp lines 704-1087)

The `double` scalars of the symbolic layer are modelled exactly in the ring
`ℚ[√3]` (`sqrt(3)` enters through the `su2_factor` tables of `QCMPO`): a pair
`⟨a, b⟩` stands for `a + b·√3`. -/
structure Q3 where
  re : ℚ
  rt : ℚ
  deriving DecidableEq, Repr

namespace Q3

instance : Add Q3 := ⟨fun x y => ⟨x.re + y.re, x.rt + y.rt⟩⟩
instance : Mul Q3 := ⟨fun x y => ⟨x.re * y.re + 3 * x.rt * y.rt, x.re * y.rt + x.rt * y.re⟩⟩
instance : Zero Q3 := ⟨⟨0, 0⟩⟩
instance : One Q3 := ⟨⟨1, 0⟩⟩
instance : Neg Q3 := ⟨fun x => ⟨-x.re, -x.rt⟩⟩

def ofRat (q : ℚ) : Q3 := ⟨q, 0⟩

def sqrt3 : Q3 := ⟨0, 1⟩

end Q3

/-- `enum struct OpNames` (quantum.hpp 48-65). -/
inductive OpNames where
  | H | I | N | NN | NUD | C | D | R | RD | A | AD | P | PD | B | Q | PDM1
  deriving DecidableEq, Repr

/-- `struct OpElement : OpExpr` (quantum.hpp 711-761): a named,
symmetry-labeled, site-indexed, scalar-scaled elementary operator. -/
structure OpElement where
  name : OpNames
  site_index : List ℕ
  factor : Q3
  q_label : SpinLabel
  deriving DecidableEq, Repr

/-- `OpElement abs() const { return OpElement(name, site_index, q_label, 1.0); }` -/
def OpElement.abs (e : OpElement) : OpElement := { e with factor := 1 }

/-- `OpElement operator*(double d)`. -/
def OpElement.mulScalar (e : OpElement) (d : Q3) : OpElement :=
  { e with factor := e.factor * d }

/-- `struct OpString : OpExpr` (quantum.hpp 763-797): ordered product of
elements with an aggregate scalar factor.  The C++ constructor multiplies the
elements' factors into the aggregate factor and stores the `abs()` of each
element; `mkNorm` is that constructor. -/
structure OpString where
  factor : Q3
  ops : List OpElement
  deriving DecidableEq, Repr

def OpString.mkNorm (ops : List OpElement) (factor : Q3) : OpString :=
  ⟨ops.foldl (fun f e => f * e.factor) factor, ops.map OpElement.abs⟩

/-- `OpString operator*(double d) const { return OpString(ops, factor * d); }` -/
def OpString.mulScalar (s : OpString) (d : Q3) : OpString :=
  OpString.mkNorm s.ops (s.factor * d)

/-- The `OpExpr` variant hierarchy `{Zero, Elem, Prod, Sum}` (an `OpSum`
holds the list of `OpString`s). -/
inductive OpExpr where
  | zero : OpExpr
  | elem : OpElement → OpExpr
  | prod : OpString → OpExpr
  | sum : List OpString → OpExpr
  deriving DecidableEq, Repr

/-- `operator+(const shared_ptr<OpExpr> &, const shared_ptr<OpExpr> &)`
(quantum.hpp 892-965).  The combinations `Elem + Prod` and `Prod + Elem`
have no `return` in the source (undefined behaviour): `none`. -/
def opAdd (a b : OpExpr) : Option OpExpr :=
  match a, b with
  | .zero, _ => some b
  | _, .zero => some a
  | .elem ea, .elem eb => some (.sum [OpString.mkNorm [ea] 1, OpString.mkNorm [eb] 1])
  | .elem ea, .sum strs => some (.sum (OpString.mkNorm [ea] 1 :: strs))
  | .prod sa, .sum strs => some (.sum (sa :: strs))
  | .prod sa, .prod sb => some (.sum [sa, sb])
  | .sum strs, .elem eb => some (.sum (strs ++ [OpString.mkNorm [eb] 1]))
  | .sum strs, .prod sb => some (.sum (strs ++ [sb]))
  | .sum sa, .sum sb => some (.sum (sa ++ sb))
  | _, _ => none

/-- `operator*(const shared_ptr<OpExpr> &x, double d)` (quantum.hpp 967-979):
`Zero` is returned unchanged; a zero scalar collapses anything to `Zero`. -/
def opScale (x : OpExpr) (d : Q3) : OpExpr :=
  match x with
  | .zero => .zero
  | .elem e => if d = 0 then .zero else .elem (e.mulScalar d)
  | .prod s => if d = 0 then .zero else .prod (s.mulScalar d)
  | .sum strs => if d = 0 then .zero else .sum (strs.map (OpString.mulScalar · d))

/-! ## QCMPO operator names (quantum.hpp 2394-2458 and 2673-2763)

Only the data that the `QCMPO` constructor needs for the operator-name
vectors: the number of sites, the per-orbital point-group irreps, and the
vacuum label (`hamil.vaccum`). -/
structure QCHamil where
  n_sites : ℕ
  orb_sym : ℕ → ℕ
  vaccum : SpinLabel

namespace QCMPO

def h_op (H : QCHamil) : OpExpr := .elem ⟨.H, [], 1, H.vaccum⟩

def i_op (H : QCHamil) : OpExpr := .elem ⟨.I, [], 1, H.vaccum⟩

def c_op (H : QCHamil) (m : ℕ) : OpExpr :=
  .elem ⟨.C, [m], 1, SpinLabel.mk3 1 1 (H.orb_sym m)⟩

def d_op (H : QCHamil) (m : ℕ) : OpExpr :=
  .elem ⟨.D, [m], 1, SpinLabel.mk3 (-1) 1 (H.orb_sym m)⟩

def trd_op (H : QCHamil) (m : ℕ) : OpExpr :=
  .elem ⟨.RD, [m], Q3.ofRat 2, SpinLabel.mk3 1 1 (H.orb_sym m)⟩

def tr_op (H : QCHamil) (m : ℕ) : OpExpr :=
  .elem ⟨.R, [m], Q3.ofRat 2, SpinLabel.mk3 (-1) 1 (H.orb_sym m)⟩

def a_op (H : QCHamil) (i j s : ℕ) : OpExpr :=
  .elem ⟨.A, [i, j, s], 1, SpinLabel.mk3 2 (s * 2) (H.orb_sym i ^^^ H.orb_sym j)⟩

def ad_op (H : QCHamil) (i j s : ℕ) : OpExpr :=
  .elem ⟨.AD, [i, j, s], 1, SpinLabel.mk3 (-2) (s * 2) (H.orb_sym i ^^^ H.orb_sym j)⟩

def b_op (H : QCHamil) (i j s : ℕ) : OpExpr :=
  .elem ⟨.B, [i, j, s], 1, SpinLabel.mk3 0 (s * 2) (H.orb_sym i ^^^ H.orb_sym j)⟩

def p_op (H : QCHamil) (i j s : ℕ) : OpExpr :=
  .elem ⟨.P, [i, j, s], 1, SpinLabel.mk3 (-2) (s * 2) (H.orb_sym i ^^^ H.orb_sym j)⟩

def pd_op (H : QCHamil) (i j s : ℕ) : OpExpr :=
  .elem ⟨.PD, [i, j, s], 1, SpinLabel.mk3 2 (s * 2) (H.orb_sym i ^^^ H.orb_sym j)⟩

def q_op (H : QCHamil) (i j s : ℕ) : OpExpr :=
  .elem ⟨.Q, [i, j, s], 1, SpinLabel.mk3 0 (s * 2) (H.orb_sym i ^^^ H.orb_sym j)⟩

/-- `vector<double> su2_factor{-0.5, -0.5 * sqrt(3)}` (P/PD columns). -/
def su2_factor_p (s : ℕ) : Q3 := if s = 0 then ⟨-(1/2), 0⟩ else ⟨0, -(1/2)⟩

/-- `su2_factor = {1.0, sqrt(3)}` (Q columns). -/
def su2_factor_q (s : ℕ) : Q3 := if s = 0 then 1 else Q3.sqrt3

/-- The `left_operator_names` row vector pushed for site `m`
(quantum.hpp 2686-2721): `[H]` at the last site, otherwise
`[H, I, C_0..C_m, D_0..D_m, RD_{m+1}.., R_{m+1}.., A(j,k,s), AD(j,k,s),
B(j,k,s)]` with `j, k ≤ m` and `s < 2`. -/
def leftOperatorNames (H : QCHamil) (m : ℕ) : List OpExpr :=
  if m = H.n_sites - 1 then [h_op H]
  else
    [h_op H, i_op H] ++
    (List.range (m + 1)).map (fun j => c_op H j) ++
    (List.range (m + 1)).map (fun j => d_op H j) ++
    (List.range (H.n_sites - (m + 1))).map (fun k => trd_op H (m + 1 + k)) ++
    (List.range (H.n_sites - (m + 1))).map (fun k => tr_op H (m + 1 + k)) ++
    (List.range 2).flatMap (fun s => (List.range (m + 1)).flatMap (fun j =>
      (List.range (m + 1)).map (fun k => a_op H j k s))) ++
    (List.range 2).flatMap (fun s => (List.range (m + 1)).flatMap (fun j =>
      (List.range (m + 1)).map (fun k => ad_op H j k s))) ++
    (List.range 2).flatMap (fun s => (List.range (m + 1)).flatMap (fun j =>
      (List.range (m + 1)).map (fun k => b_op H j k s)))

/-- The `right_operator_names` column vector pushed for site `m`
(quantum.hpp 2722-2759): `[I]` at site 0, otherwise
`[I, H, R_0..R_{m-1}, RD_0..RD_{m-1}, D_m..D_{n-1}, C_m..C_{n-1},
su2·P(j,k,s), su2·PD(j,k,s), su2·Q(j,k,s)]` with `j, k < m`, `s < 2`. -/
def rightOperatorNames (H : QCHamil) (m : ℕ) : List OpExpr :=
  if m = 0 then [i_op H]
  else
    [i_op H, h_op H] ++
    (List.range m).map (fun j => tr_op H j) ++
    (List.range m).map (fun j => trd_op H j) ++
    (List.range (H.n_sites - m)).map (fun k => d_op H (m + k)) ++
    (List.range (H.n_sites - m)).map (fun k => c_op H (m + k)) ++
    (List.range 2).flatMap (fun s => (List.range m).flatMap (fun j =>
      (List.range m).map (fun k => opScale (p_op H j k s) (su2_factor_p s)))) ++
    (List.range 2).flatMap (fun s => (List.range m).flatMap (fun j =>
      (List.range m).map (fun k => opScale (pd_op H j k s) (su2_factor_p s)))) ++
    (List.range 2).flatMap (fun s => (List.range m).flatMap (fun j =>
      (List.range m).map (fun k => opScale (q_op H j k s) (su2_factor_q s))))

/-- The complementary-partner involution on operator names realised by the
index-for-index pairing of adjacent sites' name vectors. -/
def partnerName : OpNames → OpNames
  | .H => .I
  | .I => .H
  | .C => .R
  | .R => .C
  | .D => .RD
  | .RD => .D
  | .A => .P
  | .P => .A
  | .AD => .PD
  | .PD => .AD
  | .B => .Q
  | .Q => .B
  | x => x

/-- The index-for-index relation that actually holds between
`right_operator_names` at site `m` and `left_operator_names` at site `m-1`:
both entries are elementary operators with the same site indices, the
complementary-partner names, and negated quantum labels. -/
def complOf (r l : OpExpr) : Prop :=
  ∃ er el, r = OpExpr.elem er ∧ l = OpExpr.elem el ∧
    er.name = partnerName el.name ∧ er.site_index = el.site_index ∧
    er.q_label = SpinLabel.neg el.q_label

end QCMPO

/-! ## StateInfo (quantum.hpp 1223-1365)

The parallel arrays `quanta[] / n_states[]` become a list of pairs, plus the
cached `n_states_total`.  `n_states` entries are `uint16_t`; every store in
the source saturates at 65535 and is modelled with the same `min`. -/
structure StateInfo where
  states : List (SpinLabel × ℕ)
  n_states_total : ℕ
  deriving DecidableEq, Repr

/-- The sort key of `sort_states` and of `SparseMatrixInfo::initialize`:
`SpinLabel::operator<` is raw `data` comparison. -/
def leData (p q : SpinLabel × ℕ) : Prop := p.1.data ≤ q.1.data

instance : DecidableRel leData := fun p q => Nat.decLe p.1.data q.1.data

instance : IsTotal (SpinLabel × ℕ) leData := ⟨fun a b => Nat.le_total a.1.data b.1.data⟩

instance : IsTrans (SpinLabel × ℕ) leData := ⟨fun _ _ _ => Nat.le_trans⟩

namespace StateInfo

/-- `sort_states()`: sort by label (raw `data` order) and recompute the
total.  `std::sort` is modelled by insertion sort (any permutation sorted by
the same key agrees on the observations used here). -/
def sort_states (si : StateInfo) : StateInfo :=
  let l := si.states.insertionSort leData
  ⟨l, (l.map Prod.snd).sum⟩

/-- The merge loop of `collect()`: skip zero-count entries, merge runs of
equal labels with saturating (`min (· + ·) 65535`) addition. -/
def collectMerge : List (SpinLabel × ℕ) → List (SpinLabel × ℕ)
  | [] => []
  | (q, x) :: rest =>
    if x = 0 then collectMerge rest
    else
      match collectMerge rest with
      | [] => [(q, x)]
      | (q2, x2) :: tail =>
        if q2 = q then (q, min (x + x2) 65535) :: tail
        else (q, x) :: (q2, x2) :: tail

/-- `collect(SpinLabel target)`: process only the `upper_bound(target)`
prefix (on the sorted array this is the `takeWhile (≤ target)` prefix), merge
duplicates, truncate, recompute the total. -/
def collect (si : StateInfo) (target : SpinLabel) : StateInfo :=
  let merged := collectMerge (si.states.takeWhile fun p => p.1.data ≤ target.data)
  ⟨merged, (merged.map Prod.snd).sum⟩

/-- `int find_state(SpinLabel q)`: binary search by label, `-1` if absent
(= index of the first equal entry on a sorted array). -/
def find_state (si : StateInfo) (q : SpinLabel) : ℤ :=
  match si.states.findIdx? (fun p => p.1 = q) with
  | some i => (i : ℤ)
  | none => -1

/-- `idx == -1 ? 0 : n_states[idx]` (the lookup pattern of `filter`). -/
def getStates (si : StateInfo) (i : ℤ) : ℕ :=
  if i = -1 then 0 else ((si.states.get? i.toNat).map Prod.snd).getD 0

/-- The raw pre-sort pair list of `tensor_product`: every coupled label
`(q_a + q_b)[k]` with the saturated product of dimensions. -/
def tpRaw (a b : StateInfo) : List (SpinLabel × ℕ) :=
  a.states.flatMap fun pa => b.states.flatMap fun pb =>
    let qc := pa.1 + pb.1
    (List.range qc.count).map fun k => (qc.idx k, min (pa.2 * pb.2) 65535)

/-- `static StateInfo tensor_product(a, b, target)` (quantum.hpp 1313-1335). -/
def tensor_product (a b : StateInfo) (target : SpinLabel) : StateInfo :=
  collect (sort_states ⟨tpRaw a b, 0⟩) target

/-- One pass of `filter`: recompute each of `a`'s counts as
`min` of the old count and the summed counts of `b` over the coupled range
`target - quanta[i]`, and recompute `a.n_states_total`. -/
def filterPass (a b : StateInfo) (target : SpinLabel) : StateInfo :=
  let states := a.states.map fun pa =>
    let qb := target - pa.1
    let x := (List.range qb.count).foldl
      (fun x k => x + b.getStates (b.find_state (qb.idx k))) 0
    (pa.1, min x pa.2)
  ⟨states, (states.map Prod.snd).sum⟩

/-- `static StateInfo filter(StateInfo &a, StateInfo &b, SpinLabel target)`
(quantum.hpp 1336-1359): first mutate `a` against the original `b`, then
mutate `b` against the already-mutated `a`. -/
def filter (a b : StateInfo) (target : SpinLabel) : StateInfo × StateInfo :=
  let a2 := filterPass a b target
  let b2 := filterPass b a2 target
  (a2, b2)

/-- The alternative semantics named in the spec's open question: both sides
recomputed from the pre-mutation snapshot. -/
def snapshotFilter (a b : StateInfo) (target : SpinLabel) : StateInfo × StateInfo :=
  (filterPass a b target, filterPass b a target)

end StateInfo

/-! ## SparseMatrixInfo (quantum.hpp 1367-1464)

Parallel arrays `quanta[] / n_states_bra[] / n_states_ket[] /
n_states_total[]` become four lists of equal length (`n` is
`quanta.length`). -/
def leLabel (p q : SpinLabel) : Prop := p.data ≤ q.data

instance : DecidableRel leLabel := fun p q => Nat.decLe p.data q.data

instance : IsTotal SpinLabel leLabel := ⟨fun a b => Nat.le_total a.data b.data⟩

instance : IsTrans SpinLabel leLabel := ⟨fun _ _ _ => Nat.le_trans⟩

structure SparseMatrixInfo where
  quanta : List SpinLabel
  n_states_bra : List ℕ
  n_states_ket : List ℕ
  n_states_total : List ℕ
  delta_quantum : SpinLabel
  is_fermion : Bool
  is_wavefunction : Bool
  deriving DecidableEq, Repr

/-- The exclusive prefix-sum loop
`n_states_total[0] = 0; n_states_total[i+1] = n_states_total[i] + size[i]`. -/
def prefixSums : List ℕ → List ℕ
  | [] => []
  | s :: rest => 0 :: (prefixSums rest).map (· + s)

/-- The loop label `SpinLabel q = wfn ? -ket.quanta[i] : ket.quanta[i]`. -/
def initQ0 (wfn : Bool) (q : SpinLabel) : SpinLabel :=
  if wfn then SpinLabel.neg q else q

/-- The per-ket-entry contribution to `qs` in `initialize`: every coupled
bra candidate `bs[k] = (dq + q)[k]` found in `bra`'s table contributes `q`
with `twos_low` overwritten by `bs[k].twos()`. -/
def initQs (bra : StateInfo) (dq : SpinLabel) (wfn : Bool)
    (pk : SpinLabel × ℕ) : List SpinLabel :=
  (List.range (dq + initQ0 wfn pk.1).count).filterMap fun k =>
    if bra.find_state ((dq + initQ0 wfn pk.1).idx k) ≠ -1 then
      some ((initQ0 wfn pk.1).set_twos_low ((dq + initQ0 wfn pk.1).idx k).twos)
    else none

/-- `void initialize(const StateInfo &bra, const StateInfo &ket, SpinLabel dq,
bool is_fermion, bool wfn)` (quantum.hpp 1376-1409). -/
def SparseMatrixInfo.initialized (bra ket : StateInfo) (dq : SpinLabel)
    (is_fermion : Bool) (wfn : Bool) : SparseMatrixInfo :=
  let qs := ket.states.flatMap (initQs bra dq wfn)
  let sorted := qs.insertionSort leLabel
  let nsk := sorted.map fun q => StateInfo.getStates ket
    (ket.find_state (if wfn then SpinLabel.neg q.get_ket else q.get_ket))
  let nsb := sorted.map fun q => StateInfo.getStates bra (bra.find_state (q.get_bra dq))
  ⟨sorted, nsb, nsk, prefixSums (List.zipWith (· * ·) nsb nsk), dq, is_fermion, wfn⟩

/-- `int find_state(SpinLabel q, int start = 0)` (at `start = 0`):
binary search by label, `-1` when absent. -/
def SparseMatrixInfo.find_state (info : SparseMatrixInfo) (q : SpinLabel) : ℤ :=
  match info.quanta.findIdx? (fun x => x = q) with
  | some i => (i : ℤ)
  | none => -1

/-- `uint32_t get_total_memory() const` (quantum.hpp 1417-1421). -/
def SparseMatrixInfo.get_total_memory (info : SparseMatrixInfo) : ℕ :=
  if info.quanta.length = 0 then 0
  else
    info.n_states_total.getD (info.quanta.length - 1) 0 +
      info.n_states_bra.getD (info.quanta.length - 1) 0 *
        info.n_states_ket.getD (info.quanta.length - 1) 0

/-- A canonical quantum label: `twos_low = twos`, spin byte below 128, and a
32-bit word. -/
def okLabel (q : SpinLabel) : Prop :=
  q.twos_low = q.twos ∧ q.twos < 128 ∧ q.data < 2 ^ 32

instance : DecidablePred okLabel := fun q => by unfold okLabel; infer_instance

/-! ## SparseMatrix (quantum.hpp 1466-1514)

`double *data` with block layout described by the info's offsets: a
`MatrixRef` is its offset `data + n_states_total[idx]` together with the
`m × n` shape. `operator[](int idx)` has `assert(idx != -1)`; the failed
assertion is the `none` branch. -/
structure MatrixRef where
  offset : ℕ
  m : ℕ
  n : ℕ
  deriving DecidableEq, Repr

structure SparseMatrix where
  info : SparseMatrixInfo
  data : List ℚ
  factor : ℚ
  conj : Bool
  deriving DecidableEq, Repr

/-- `MatrixRef operator[](int idx) const` (quantum.hpp 1502-1506). -/
def SparseMatrix.blockIdx (mat : SparseMatrix) (idx : ℤ) : Option MatrixRef :=
  if idx = -1 then none
  else
    some ⟨mat.info.n_states_total.getD idx.toNat 0,
      mat.info.n_states_bra.getD idx.toNat 0,
      mat.info.n_states_ket.getD idx.toNat 0⟩

/-- `MatrixRef operator[](SpinLabel q) const` (quantum.hpp 1499-1501):
forwards `info->find_state(q)`. -/
def SparseMatrix.block (mat : SparseMatrix) (q : SpinLabel) : Option MatrixRef :=
  mat.blockIdx (mat.info.find_state q)

/-- The `MatrixRef` of block `i` (the body of `operator[](int idx)` once the
assert has passed): offset `n_states_total[i]`, shape
`n_states_bra[i] × n_states_ket[i]`. -/
def SparseMatrix.blockAt (mat : SparseMatrix) (i : ℕ) : MatrixRef :=
  ⟨mat.info.n_states_total.getD i 0, mat.info.n_states_bra.getD i 0,
    mat.info.n_states_ket.getD i 0⟩

/-! ## MatrixFunctions / OperatorFunctions (quantum.hpp 1514-1684)

Dense kernels act on a flat row-major `List ℚ` buffer; a `MatrixRef`
addresses the slice starting at its offset.  `double` scalars are exact
`ℚ`; the `sqrt` in `product` becomes a parameter `sq : ℤ → ℚ`, like the
square-root-factorial table of the CG coefficients.  A C `assert` is the
`none` branch. -/
/-- `a(i, j)`: entry `(i, j)` of the block `ref` inside `data`. -/
def MatrixRef.entry (ref : MatrixRef) (data : List ℚ) (i j : ℕ) : ℚ :=
  data.getD (ref.offset + i * ref.n + j) 0

/-- `TINY` (quantum.hpp line 24): `1E-20`, exactly. -/
def TINY : ℚ := 1 / 10 ^ 20

namespace MatrixFunctions

/-- `iscale`: `dscal` over the whole buffer. -/
def iscale (data : List ℚ) (scale : ℚ) : List ℚ := data.map (· * scale)

/-- `iadd` on flat buffers: `daxpy`, `y + scale * x` elementwise. -/
def iadd (ydata xdata : List ℚ) (scale : ℚ) : List ℚ :=
  List.zipWith (fun y x => y + scale * x) ydata xdata

/-- `tensor_product(a, conja, b, conjb, c, scale, stride)`
(quantum.hpp 1556-1572): for each entry of `a`, `daxpy` every row of `b`
into `c` at `c(i * b.m + k, j * b.n + stride)`; the `conja or conjb`
branch is `assert(false)`. -/
def tensor_product (aref : MatrixRef) (conja : Bool) (adata : List ℚ)
    (bref : MatrixRef) (conjb : Bool) (bdata : List ℚ)
    (cref : MatrixRef) (cdata : List ℚ) (scale : ℚ) (stride : ℕ) :
    Option (List ℚ) :=
  if conja = true ∨ conjb = true then none
  else some ((List.range aref.m).foldl (fun cd i =>
    (List.range aref.n).foldl (fun cd j =>
      (List.range bref.m).foldl (fun cd k =>
        (List.range bref.n).foldl (fun cd l =>
          let p := cref.offset + (i * bref.m + k) * cref.n +
            (j * bref.n + stride + l)
          cd.set p (cd.getD p 0 +
            scale * aref.entry adata i j * bref.entry bdata k l)) cd) cd) cd)
    cdata)

/-- `multiply(a, conja, b, conjb, c, scale, cfactor)` (quantum.hpp
1544-1553): `dgemm`, `c = scale * a * b + cfactor * c`; any `conj` is
`assert(false)`, and the shape `assert` guards `a.n = b.m`, `c.m = a.m`,
`c.n = b.n`. -/
def multiply (aref : MatrixRef) (conja : Bool) (adata : List ℚ)
    (bref : MatrixRef) (conjb : Bool) (bdata : List ℚ)
    (cref : MatrixRef) (cdata : List ℚ) (scale cfactor : ℚ) :
    Option (List ℚ) :=
  if conja = true ∨ conjb = true then none
  else if aref.n = bref.m ∧ cref.m = aref.m ∧ cref.n = bref.n then
    some ((List.range cref.m).foldl (fun cd i =>
      (List.range cref.n).foldl (fun cd j =>
        let p := cref.offset + i * cref.n + j
        cd.set p (cfactor * cd.getD p 0 +
          scale * ((List.range bref.m).map
            (fun k => aref.entry adata i k * bref.entry bdata k j)).sum)) cd)
      cdata)
  else none

end MatrixFunctions

/-- The `if (a.factor != 1.0)` head of `OperatorFunctions::iadd`: absorb the
lazy factor into the raw buffer and set it to 1. -/
def normalizeFactor (a : SparseMatrix) : SparseMatrix :=
  if a.factor ≠ 1 then
    { a with data := MatrixFunctions.iscale a.data (1 / a.factor), factor := 1 }
  else a

namespace OperatorFunctions

/-- `iadd(a, b, scale)` (quantum.hpp 1578-1589): `a += b * scale`. The
entry `assert` compares table sizes and buffer sizes; then the factor is
normalized, and the accumulation runs under the guard `scale != 0.0`. -/
def iadd (a b : SparseMatrix) (scale : ℚ) : Option SparseMatrix :=
  if a.info.quanta.length = b.info.quanta.length ∧
      a.data.length = b.data.length then
    if scale ≠ 0 then
      some { normalizeFactor a with
        data := MatrixFunctions.iadd (normalizeFactor a).data b.data
          (scale * b.factor) }
    else some (normalizeFactor a)
  else none

/-- The state threaded through the `ib`/`k` loops of
`OperatorFunctions::tensor_product`: the `c` buffer and the mutable
`row_stride` / `col_stride` counters. -/
structure TPState where
  cdata : List ℚ
  row : ℕ
  col : ℕ

/-- The state threaded through the innermost `l` loop: the `c` buffer,
`col_stride`, and the last assigned `n_bra`. -/
structure TPLState where
  cdata : List ℚ
  col : ℕ
  nbra : ℕ

/-- The block loop of `OperatorFunctions::tensor_product` (quantum.hpp
1599-1644) after the early returns: walk `c`'s quanta, `b`'s quanta and the
coupled `a` ranges, accumulate the strides, and call the dense kernel for
every matching `a` block. -/
def tpLoop (sf : ℤ → ℚ) (a b c : SparseMatrix) (scale : ℚ) :
    Option (List ℚ) :=
  let adq := a.info.delta_quantum
  let bdq := b.info.delta_quantum
  let cdq := c.info.delta_quantum
  (List.range c.info.quanta.length).foldlM (fun cdata ic => do
    let cq := (c.info.quanta.getD ic ⟨0⟩).get_bra cdq
    let cqprime := (c.info.quanta.getD ic ⟨0⟩).get_ket
    let st ← (List.range b.info.quanta.length).foldlM
      (fun (st : TPState) ib => do
        let bq := (b.info.quanta.getD ib ⟨0⟩).get_bra bdq
        let bqprime := (b.info.quanta.getD ib ⟨0⟩).get_ket
        let aqs := cq - bq
        let aqps := cqprime - bqprime
        (List.range aqs.count).foldlM (fun (st : TPState) k => do
          let aq := aqs.idx k
          let aqpds := aqs.idx k - adq
          let ls ← (List.range aqpds.count).foldlM (fun (ls : TPLState) l => do
            let aqprime := aqpds.idx l
            let al := adq.combine aq aqprime
            if aqps.find aqprime ≠ -1 ∧ al ≠ ⟨0xFFFFFFFF⟩ then
              let ia := a.info.find_state al
              if ia ≠ -1 then do
                let n_bra := a.info.n_states_bra.getD ia.toNat 0
                let n_ket := a.info.n_states_ket.getD ia.toNat 0
                let factor := CG.wigner_9j sf (aqprime.twos : ℤ)
                    (bqprime.twos : ℤ) (cqprime.twos : ℤ) (adq.twos : ℤ)
                    (bdq.twos : ℤ) (cdq.twos : ℤ) (aq.twos : ℤ) (bq.twos : ℤ)
                    (cq.twos : ℤ) *
                  (if b.info.is_fermion = true ∧ aqprime.n % 2 = 1 then
                    (-1 : ℚ) else 1)
                let cd ← MatrixFunctions.tensor_product (a.blockAt ia.toNat)
                  a.conj a.data (b.blockAt ib) b.conj b.data (c.blockAt ic)
                  ls.cdata (scale * factor)
                  (st.row * c.info.n_states_ket.getD ic 0 + ls.col)
                pure ⟨cd, ls.col + n_ket * b.info.n_states_ket.getD ib 0,
                  n_bra⟩
              else pure ⟨ls.cdata, ls.col, ls.nbra⟩
            else pure ⟨ls.cdata, ls.col, ls.nbra⟩) ⟨st.cdata, st.col, 0⟩
          pure ⟨ls.cdata, st.row + ls.nbra * b.info.n_states_bra.getD ib 0,
            ls.col⟩) st) ⟨cdata, 0, 0⟩
    pure st.cdata) c.data

/-- `tensor_product(a, b, c, scale)` (quantum.hpp 1590-1644): fold the lazy
factors into the scale, `assert(c.factor == 1.0)`, return unchanged when
`|scale| < TINY`, `assert(b.info->n <= 3)`, then run the block loop. -/
def tensor_product (sf : ℤ → ℚ) (a b c : SparseMatrix) (scale₀ : ℚ) :
    Option SparseMatrix :=
  let scale := scale₀ * a.factor * b.factor
  if c.factor = 1 then
    if |scale| < TINY then some c
    else if b.info.quanta.length ≤ 3 then
      (tpLoop sf a b c scale).map fun cd => { c with data := cd }
    else none
  else none

/-- The block loop of `OperatorFunctions::product` (quantum.hpp 1652-1683)
after the early returns. -/
def prodLoop (sf sq : ℤ → ℚ) (a b c : SparseMatrix) (scale : ℚ) :
    Option (List ℚ) :=
  let adq := (a.info.delta_quantum.twos : ℤ)
  let bdq := (b.info.delta_quantum.twos : ℤ)
  let cdq := (c.info.delta_quantum.twos : ℤ)
  (List.range c.info.quanta.length).foldlM (fun cdata ic => do
    let cq := (c.info.quanta.getD ic ⟨0⟩).get_bra c.info.delta_quantum
    let cqprime := (c.info.quanta.getD ic ⟨0⟩).get_ket
    let aps := cq - a.info.delta_quantum
    (List.range aps.count).foldlM (fun cdata k => do
      let aqprime := aps.idx k
      let ac := (aps.idx k).set_twos_low cq.twos
      let ia := a.info.find_state ac
      if ia ≠ -1 then
        let bl := b.info.delta_quantum.combine aqprime cqprime
        if bl ≠ ⟨0xFFFFFFFF⟩ then
          let ib := b.info.find_state bl
          if ib ≠ -1 then
            let factor := CG.racah sf (cqprime.twos : ℤ) bdq (cq.twos : ℤ)
                adq (aqprime.twos : ℤ) cdq *
              (sq ((cdq + 1) * ((aqprime.twos : ℤ) + 1)) *
                signBit2 (adq + bdq - cdq))
            MatrixFunctions.multiply (a.blockAt ia.toNat) a.conj a.data
              (b.blockAt ib.toNat) b.conj b.data (c.blockAt ic) cdata
              (scale * factor) 1
          else pure cdata
        else pure cdata
      else pure cdata) cdata) c.data

/-- `product(a, b, c, scale)` (quantum.hpp 1646-1683): `c = a * b * scale`;
fold the lazy factors into the scale, `assert(c.factor == 1.0)`, return
unchanged when `|scale| < TINY`, then run the block loop. -/
def product (sf sq : ℤ → ℚ) (a b c : SparseMatrix) (scale₀ : ℚ) :
    Option SparseMatrix :=
  let scale := scale₀ * a.factor * b.factor
  if c.factor = 1 then
    if |scale| < TINY then some c
    else (prodLoop sf sq a b c scale).map fun cd => { c with data := cd }
  else none

end OperatorFunctions

/-- A one-block operator with trivial table, unit factor, buffer `[0]`. -/
def mat₀ : SparseMatrix :=
  ⟨⟨[⟨0⟩], [1], [1], [0], ⟨0⟩, false, false⟩, [0], 1, false⟩

/-- The constant-one stand-in for the square-root tables. -/
def oneTab : ℤ → ℚ := fun _ => 1

/-- C1: for every allocator state and every `n > 0`, `deallocate ptr n`
decreases the `used` cursor by `n` exactly when `ptr = data + used - n` (with
`used ≥ n`); any other pointer takes the fatal reverse-order path (`none`).
In particular the 10/20/30 scenario deallocating the size-10 block first is
fatal rather than silently succeeding. -/
theorem stackAllocator_deallocate_lifo (s : StackAllocator) (ptr n : Nat)
    (hn : 0 < n) :
    (s.deallocate ptr n = some { s with used := s.used - n } ↔
      n ≤ s.used ∧ ptr = s.used - n) ∧
    (¬(n ≤ s.used ∧ ptr = s.used - n) → s.deallocate ptr n = none) ∧
    lifoScenario = none := by
  refine ⟨?_, ?_, by decide⟩
  · unfold StackAllocator.deallocate
    rw [if_neg (by omega)]
    constructor
    · intro h
      by_cases hc : s.used < n ∨ ptr ≠ s.used - n
      · rw [if_pos hc] at h; exact absurd h (by simp)
      · push_neg at hc; exact ⟨by omega, hc.2⟩
    · intro ⟨h1, h2⟩
      rw [if_neg (by omega)]
  · intro h
    unfold StackAllocator.deallocate
    rw [if_neg (by omega), if_pos (by omega)]

/-! ## Bit-manipulation toolkit

Helper lemmas that turn `&&&` with byte-aligned masks, and `|||` of
bit-disjoint values, into plain `/`, `%`, `*`, `+` arithmetic so that `omega`
can reason about the packed 32-bit quantum labels. -/
theorem land_contig (x k w : ℕ) :
    x &&& (2 ^ w - 1) <<< k = x / 2 ^ k % 2 ^ w * 2 ^ k := by
  have h : x / 2 ^ k % 2 ^ w * 2 ^ k = (x >>> k % 2 ^ w) <<< k := by
    rw [Nat.shiftRight_eq_div_pow, Nat.shiftLeft_eq]
  rw [h]
  apply Nat.eq_of_testBit_eq
  intro i
  simp only [Nat.testBit_and, Nat.testBit_shiftLeft, Nat.testBit_mod_two_pow,
    Nat.testBit_shiftRight, Nat.testBit_two_pow_sub_one]
  by_cases hik : k ≤ i
  · have hk : k + (i - k) = i := by omega
    simp [hik, hk, Bool.and_comm, Bool.and_left_comm]
  · simp [hik]

theorem lor_disjoint_eq_add (a b k : ℕ) (hb : b < 2 ^ k) :
    a * 2 ^ k ||| b = a * 2 ^ k + b := by
  rw [mul_comm a (2 ^ k), ← Nat.mul_add_lt_is_or hb a]

theorem land_contig2 (x k1 w1 k2 w2 : ℕ) (h : k2 + w2 ≤ k1) :
    x &&& ((2 ^ w1 - 1) <<< k1 ||| (2 ^ w2 - 1) <<< k2) =
    x / 2 ^ k1 % 2 ^ w1 * 2 ^ k1 + x / 2 ^ k2 % 2 ^ w2 * 2 ^ k2 := by
  have h1 : x / 2 ^ k2 % 2 ^ w2 < 2 ^ w2 := Nat.mod_lt _ (by positivity)
  have hB : x / 2 ^ k2 % 2 ^ w2 * 2 ^ k2 < 2 ^ k1 := by
    have h2 : x / 2 ^ k2 % 2 ^ w2 * 2 ^ k2 < 2 ^ w2 * 2 ^ k2 :=
      Nat.mul_lt_mul_of_lt_of_le h1 (le_refl _) (by positivity)
    refine Nat.lt_of_lt_of_le h2 ?_
    rw [← pow_add]
    exact Nat.pow_le_pow_right (by norm_num) (by omega)
  rw [Nat.and_or_distrib_left, land_contig, land_contig,
    lor_disjoint_eq_add _ _ k1 hB]

theorem land_FFFFFF (x : ℕ) : x &&& 0xFFFFFF = x % 2 ^ 24 := by
  have h := Nat.and_pow_two_sub_one_eq_mod x 24
  norm_num at h
  exact h

theorem land_FF (x : ℕ) : x &&& 0xFF = x % 2 ^ 8 := by
  have h := Nat.and_pow_two_sub_one_eq_mod x 8
  norm_num at h
  exact h

theorem land_7F (x : ℕ) : x &&& 0x7F = x % 2 ^ 7 := by
  have h := Nat.and_pow_two_sub_one_eq_mod x 7
  norm_num at h
  exact h

theorem land_FF000000 (x : ℕ) : x &&& 0xFF000000 = x / 2 ^ 24 % 2 ^ 8 * 2 ^ 24 := by
  have h := land_contig x 24 8
  norm_num [Nat.shiftLeft_eq] at h
  exact h

theorem land_FF00 (x : ℕ) : x &&& 0xFF00 = x / 2 ^ 8 % 2 ^ 8 * 2 ^ 8 := by
  have h := land_contig x 8 8
  norm_num [Nat.shiftLeft_eq] at h
  exact h

theorem land_FF0000 (x : ℕ) : x &&& 0xFF0000 = x / 2 ^ 16 % 2 ^ 8 * 2 ^ 16 := by
  have h := land_contig x 16 8
  norm_num [Nat.shiftLeft_eq] at h
  exact h

theorem land_100 (x : ℕ) : x &&& 0x100 = x / 2 ^ 8 % 2 * 2 ^ 8 := by
  have h := land_contig x 8 1
  norm_num [Nat.shiftLeft_eq] at h
  exact h

theorem land_FF00FF00 (x : ℕ) :
    x &&& 0xFF00FF00 = x / 2 ^ 24 % 2 ^ 8 * 2 ^ 24 + x / 2 ^ 8 % 2 ^ 8 * 2 ^ 8 := by
  have h := land_contig2 x 24 8 8 8 (by norm_num)
  have hm : ((2 ^ 8 - 1) <<< 24 ||| (2 ^ 8 - 1) <<< 8 : ℕ) = 0xFF00FF00 := by decide
  rw [hm] at h
  exact h

theorem land_FFFF00FF (x : ℕ) :
    x &&& 0xFFFF00FF = x / 2 ^ 16 % 2 ^ 16 * 2 ^ 16 + x % 2 ^ 8 := by
  have h := land_contig2 x 16 16 0 8 (by norm_num)
  have hm : ((2 ^ 16 - 1) <<< 16 ||| (2 ^ 8 - 1) <<< 0 : ℕ) = 0xFFFF00FF := by decide
  rw [hm] at h
  norm_num at h
  exact h

theorem land_FF00FFFF (x : ℕ) :
    x &&& 0xFF00FFFF = x / 2 ^ 24 % 2 ^ 8 * 2 ^ 24 + x % 2 ^ 16 := by
  have h := land_contig2 x 24 8 0 16 (by norm_num)
  have hm : ((2 ^ 8 - 1) <<< 24 ||| (2 ^ 16 - 1) <<< 0 : ℕ) = 0xFF00FFFF := by decide
  rw [hm] at h
  norm_num at h
  exact h

theorem land_FF0000FF (x : ℕ) :
    x &&& 0xFF0000FF = x / 2 ^ 24 % 2 ^ 8 * 2 ^ 24 + x % 2 ^ 8 := by
  have h := land_contig2 x 24 8 0 8 (by norm_num)
  have hm : ((2 ^ 8 - 1) <<< 24 ||| (2 ^ 8 - 1) <<< 0 : ℕ) = 0xFF0000FF := by decide
  rw [hm] at h
  norm_num at h
  exact h

theorem mkData_lor (nb tl t g : ℕ) (htl : tl < 256) (ht : t < 256) (hg : g < 256) :
    nb * 2 ^ 24 ||| tl * 2 ^ 16 ||| t * 2 ^ 8 ||| g = mkData nb tl t g := by
  rw [lor_disjoint_eq_add nb (tl * 2 ^ 16) 24 (by omega)]
  rw [show nb * 2 ^ 24 + tl * 2 ^ 16 = (nb * 2 ^ 8 + tl) * 2 ^ 16 by ring]
  rw [lor_disjoint_eq_add _ (t * 2 ^ 8) 16 (by omega)]
  rw [show (nb * 2 ^ 8 + tl) * 2 ^ 16 + t * 2 ^ 8 = ((nb * 2 ^ 8 + tl) * 2 ^ 8 + t) * 2 ^ 8
    by ring]
  rw [lor_disjoint_eq_add _ g 8 hg]
  unfold mkData
  ring

theorem mk4_eq (n : ℤ) (tl t g : ℕ) (htl : tl < 256) (ht : t < 256) (hg : g < 256) :
    SpinLabel.mk4 n tl t g = ⟨mkData (n % 256).toNat tl t g⟩ := by
  unfold SpinLabel.mk4
  have h0 : (0:ℤ) ≤ n % 256 := Int.emod_nonneg n (by norm_num)
  have h1 : n * 2 ^ 24 % 2 ^ 32 = n % 256 * 2 ^ 24 := by omega
  have h2 : (n % 256 * (2 ^ 24 : ℤ)).toNat = (n % 256).toNat * 2 ^ 24 := by
    rw [show (n % 256) = ((n % 256).toNat : ℤ) from (Int.toNat_of_nonneg h0).symm]
    rw [show (((n % 256).toNat : ℤ) * 2 ^ 24) = (((n % 256).toNat * 2 ^ 24 : ℕ) : ℤ)
      by push_cast; ring]
    exact Int.toNat_natCast _
  rw [h1, h2, Nat.shiftLeft_eq, Nat.shiftLeft_eq, mkData_lor _ _ _ _ htl ht hg]

theorem mkData_twos (nb tl t g : ℕ) (hnb : nb < 256) (htl : tl < 256)
    (ht : t < 256) (hg : g < 256) : SpinLabel.twos ⟨mkData nb tl t g⟩ = t := by
  unfold SpinLabel.twos mkData
  simp only
  omega

theorem mkData_twos_low (nb tl t g : ℕ) (hnb : nb < 256) (htl : tl < 256)
    (ht : t < 256) (hg : g < 256) : SpinLabel.twos_low ⟨mkData nb tl t g⟩ = tl := by
  unfold SpinLabel.twos_low mkData
  simp only
  omega

theorem mkData_pg (nb tl t g : ℕ) (hnb : nb < 256) (htl : tl < 256)
    (ht : t < 256) (hg : g < 256) : SpinLabel.pg ⟨mkData nb tl t g⟩ = g := by
  unfold SpinLabel.pg mkData
  simp only
  omega

theorem mkData_lt (nb tl t g : ℕ) (hnb : nb < 256) (htl : tl < 256)
    (ht : t < 256) (hg : g < 256) : mkData nb tl t g < 2 ^ 32 := by
  unfold mkData
  omega

/-- Closed form of `operator-` on a canonical packed word: the particle-number
byte is negated (two's complement), the spin and point-group bytes are kept. -/
theorem neg_mkData (nb tl t g : ℕ) (hnb : nb < 256) (htl : tl < 256)
    (ht : t < 256) (hg : g < 256) :
    SpinLabel.neg ⟨mkData nb tl t g⟩ = ⟨mkData ((256 - nb) % 256) tl t g⟩ := by
  unfold SpinLabel.neg lnot32
  rw [land_FFFFFF, land_FF000000, Nat.lor_comm,
    lor_disjoint_eq_add _ _ 24 (by omega)]
  simp only [mkData, SpinLabel.mk.injEq]
  omega

theorem mkData_div24 (nb tl t g : ℕ) (htl : tl < 256) (ht : t < 256)
    (hg : g < 256) : mkData nb tl t g / 2 ^ 24 = nb := by
  unfold mkData; omega

theorem mkData_div16 (nb tl t g : ℕ) (ht : t < 256) (hg : g < 256) :
    mkData nb tl t g / 2 ^ 16 = nb * 2 ^ 8 + tl := by
  unfold mkData; omega

theorem mkData_div8 (nb tl t g : ℕ) (hg : g < 256) :
    mkData nb tl t g / 2 ^ 8 = nb * 2 ^ 16 + tl * 2 ^ 8 + t := by
  unfold mkData; omega

theorem assemble_mid16 (c d e f : ℕ) (hd : d < 256) (he : e < 256) (hf : f < 256) :
    (c * 2 ^ 24 + e * 2 ^ 8 + f) ||| d * 2 ^ 16 = mkData c d e f := by
  rw [show c * 2 ^ 24 + e * 2 ^ 8 + f = c * 2 ^ 24 + (e * 2 ^ 8 + f) by ring,
    ← lor_disjoint_eq_add c (e * 2 ^ 8 + f) 24 (by omega), Nat.lor_assoc,
    Nat.lor_comm (e * 2 ^ 8 + f) (d * 2 ^ 16),
    lor_disjoint_eq_add d (e * 2 ^ 8 + f) 16 (by omega),
    lor_disjoint_eq_add c _ 24 (by omega)]
  unfold mkData
  ring

theorem assemble_mid8 (c d e f : ℕ) (hd : d < 256) (he : e < 256) (hf : f < 256) :
    (c * 2 ^ 24 + d * 2 ^ 16 + f) ||| e * 2 ^ 8 = mkData c d e f := by
  rw [show c * 2 ^ 24 + d * 2 ^ 16 + f = (c * 2 ^ 8 + d) * 2 ^ 16 + f by ring,
    ← lor_disjoint_eq_add (c * 2 ^ 8 + d) f 16 (by omega), Nat.lor_assoc,
    Nat.lor_comm f (e * 2 ^ 8),
    lor_disjoint_eq_add e f 8 (by omega),
    lor_disjoint_eq_add (c * 2 ^ 8 + d) _ 16 (by omega)]
  unfold mkData
  ring

/-- The bit-trick absolute value in `operator+`, on a non-wrapped (left
operand larger) 32-bit difference `d <<< 16`. -/
theorem absTrickPos : ∀ d, d < 128 →
    (((d * 2 ^ 16) >>> 7 + d * 2 ^ 16) % 2 ^ 32 ^^^ (d * 2 ^ 16) >>> 7) &&& 0xFF0000 =
      d * 2 ^ 16 := by decide

/-- The bit-trick absolute value in `operator+`, on a wrapped (left operand
smaller) 32-bit difference `2^32 - d <<< 16`. -/
theorem absTrickNeg : ∀ d, d < 128 → 0 < d →
    (((2 ^ 32 - d * 2 ^ 16) >>> 7 + (2 ^ 32 - d * 2 ^ 16)) % 2 ^ 32 ^^^
      (2 ^ 32 - d * 2 ^ 16) >>> 7) &&& 0xFF0000 = d * 2 ^ 16 := by decide

theorem subTrick (u v : ℕ) (hu : u < 128) (hv : v < 128) :
    ((sub32 (u * 2 ^ 16) (v * 2 ^ 16) >>> 7 + sub32 (u * 2 ^ 16) (v * 2 ^ 16)) % 2 ^ 32 ^^^
      sub32 (u * 2 ^ 16) (v * 2 ^ 16) >>> 7) &&& 0xFF0000 =
      (max u v - min u v) * 2 ^ 16 := by
  rcases le_or_lt v u with h | h
  · have hx : sub32 (u * 2 ^ 16) (v * 2 ^ 16) = (u - v) * 2 ^ 16 := by
      unfold sub32; omega
    rw [hx, absTrickPos (u - v) (by omega), show max u v - min u v = u - v by omega]
  · have hx : sub32 (u * 2 ^ 16) (v * 2 ^ 16) = 2 ^ 32 - (v - u) * 2 ^ 16 := by
      unfold sub32; omega
    rw [hx, absTrickNeg (v - u) (by omega) (by omega),
      show max u v - min u v = v - u by omega]

/-- Closed form of `operator+` on canonical labels: particle numbers add
modulo the byte, point groups XOR, and the spin fields hold the coupled range
`[|t1-t2|, t1+t2]`. -/
theorem add_mkData (nb1 t1 g1 nb2 t2 g2 : ℕ)
    (hn1 : nb1 < 256) (ht1 : t1 < 128) (hg1 : g1 < 256)
    (hn2 : nb2 < 256) (ht2 : t2 < 128) (hg2 : g2 < 256) :
    SpinLabel.add ⟨mkData nb1 t1 t1 g1⟩ ⟨mkData nb2 t2 t2 g2⟩ =
      ⟨mkData ((nb1 + nb2) % 256) (max t1 t2 - min t1 t2) (t1 + t2) (g1 ^^^ g2)⟩ := by
  unfold SpinLabel.add
  simp only
  have hA1 : mkData nb1 t1 t1 g1 &&& 0xFF00FF00 = nb1 * 2 ^ 24 + t1 * 2 ^ 8 := by
    rw [land_FF00FF00, mkData_div24 _ _ _ _ (by omega) (by omega) (by omega),
      mkData_div8 _ _ _ _ (by omega), Nat.mod_eq_of_lt (show nb1 < 2 ^ 8 by omega),
      show (nb1 * 2 ^ 16 + t1 * 2 ^ 8 + t1) % 2 ^ 8 = t1 by omega]
  have hA2 : mkData nb2 t2 t2 g2 &&& 0xFF00FF00 = nb2 * 2 ^ 24 + t2 * 2 ^ 8 := by
    rw [land_FF00FF00, mkData_div24 _ _ _ _ (by omega) (by omega) (by omega),
      mkData_div8 _ _ _ _ (by omega), Nat.mod_eq_of_lt (show nb2 < 2 ^ 8 by omega),
      show (nb2 * 2 ^ 16 + t2 * 2 ^ 8 + t2) % 2 ^ 8 = t2 by omega]
  have hA3 : mkData nb1 t1 t1 g1 &&& 0xFF = g1 := by
    rw [land_FF]; unfold mkData; omega
  have hA4 : mkData nb2 t2 t2 g2 &&& 0xFF = g2 := by
    rw [land_FF]; unfold mkData; omega
  have hA5 : (mkData nb1 t1 t1 g1 &&& 0xFF00) <<< 8 = t1 * 2 ^ 16 := by
    rw [land_FF00, mkData_div8 _ _ _ _ (by omega), Nat.shiftLeft_eq,
      show (nb1 * 2 ^ 16 + t1 * 2 ^ 8 + t1) % 2 ^ 8 = t1 by omega]
    ring
  have hA6 : (mkData nb2 t2 t2 g2 &&& 0xFF00) <<< 8 = t2 * 2 ^ 16 := by
    rw [land_FF00, mkData_div8 _ _ _ _ (by omega), Nat.shiftLeft_eq,
      show (nb2 * 2 ^ 16 + t2 * 2 ^ 8 + t2) % 2 ^ 8 = t2 by omega]
    ring
  have hA7 : mkData nb2 t2 t2 g2 &&& 0xFF0000 = t2 * 2 ^ 16 := by
    rw [land_FF0000, mkData_div16 _ _ _ _ (by omega) (by omega),
      show (nb2 * 2 ^ 8 + t2) % 2 ^ 8 = t2 by omega]
  have hA8 : mkData nb1 t1 t1 g1 &&& 0xFF0000 = t1 * 2 ^ 16 := by
    rw [land_FF0000, mkData_div16 _ _ _ _ (by omega) (by omega),
      show (nb1 * 2 ^ 8 + t1) % 2 ^ 8 = t1 by omega]
  rw [hA1, hA2, hA3, hA4, hA5, hA6, hA7, hA8, subTrick t1 t2 ht1 ht2,
    subTrick t2 t1 ht2 ht1, show max t2 t1 = max t1 t2 from Nat.max_comm t2 t1,
    show min t2 t1 = min t1 t2 from Nat.min_comm t2 t1, Nat.min_self]
  have hS : (nb1 * 2 ^ 24 + t1 * 2 ^ 8 + (nb2 * 2 ^ 24 + t2 * 2 ^ 8)) % 2 ^ 32 =
      (nb1 + nb2) % 256 * 2 ^ 24 + (t1 + t2) * 2 ^ 8 := by omega
  rw [hS]
  have hG : g1 ^^^ g2 < 256 := Nat.xor_lt_two_pow (n := 8) (by omega) (by omega)
  rw [show (nb1 + nb2) % 256 * 2 ^ 24 + (t1 + t2) * 2 ^ 8 =
      ((nb1 + nb2) % 256 * 2 ^ 16 + (t1 + t2)) * 2 ^ 8 by ring,
    lor_disjoint_eq_add _ (g1 ^^^ g2) 8 (by omega),
    show ((nb1 + nb2) % 256 * 2 ^ 16 + (t1 + t2)) * 2 ^ 8 + (g1 ^^^ g2) =
      (nb1 + nb2) % 256 * 2 ^ 24 + (t1 + t2) * 2 ^ 8 + (g1 ^^^ g2) by ring,
    assemble_mid16 _ _ _ _ (by omega) (by omega) (by omega)]

/-- Closed form of `operator[](int i)` on a packed word whose `twos_low`
byte can absorb `2 i` without carrying: the i-th coupled value has
`twos = twos_low = tl + 2 i` and the other fields unchanged. -/
theorem idx_mkData (nb tl t g i : ℕ) (hnb : nb < 256) (htl : tl + 2 * i < 256)
    (ht : t < 256) (hg : g < 256) :
    SpinLabel.idx ⟨mkData nb tl t g⟩ i = ⟨mkData nb (tl + 2 * i) (tl + 2 * i) g⟩ := by
  unfold SpinLabel.idx
  simp only
  have hx : (mkData nb tl t g + i <<< 17) % 2 ^ 32 = mkData nb (tl + 2 * i) t g := by
    rw [Nat.shiftLeft_eq]; unfold mkData; omega
  rw [hx, land_FFFF00FF, land_FF0000, mkData_div16 _ _ _ _ (by omega) (by omega)]
  have h1 : (nb * 2 ^ 8 + (tl + 2 * i)) % 2 ^ 16 * 2 ^ 16 +
      mkData nb (tl + 2 * i) t g % 2 ^ 8 =
      nb * 2 ^ 24 + (tl + 2 * i) * 2 ^ 16 + g := by
    rw [Nat.mod_eq_of_lt (show nb * 2 ^ 8 + (tl + 2 * i) < 2 ^ 16 by omega),
      show mkData nb (tl + 2 * i) t g % 2 ^ 8 = g from by unfold mkData; omega]
    ring
  have h2 : ((nb * 2 ^ 8 + (tl + 2 * i)) % 2 ^ 8 * 2 ^ 16) >>> 8 =
      (tl + 2 * i) * 2 ^ 8 := by
    rw [Nat.shiftRight_eq_div_pow, show (nb * 2 ^ 8 + (tl + 2 * i)) % 2 ^ 8 = tl + 2 * i
      by omega]
    omega
  rw [h1, h2, assemble_mid8 _ _ _ _ (by omega) (by omega) (by omega)]

/-- Closed form of `count()` : `(twos - twos_low) / 2 + 1` multiplicities. -/
theorem count_mkData (nb tl t g : ℕ) (hnb : nb < 256) (htl : tl < 256)
    (ht : t < 256) (hg : g < 256) (hle : tl ≤ t) :
    SpinLabel.count ⟨mkData nb tl t g⟩ = (t / 2 - tl / 2) + 1 := by
  unfold SpinLabel.count
  rw [Nat.shiftRight_eq_div_pow, Nat.shiftRight_eq_div_pow, land_7F]
  simp only
  have hA9 : mkData nb tl t g / 2 ^ 9 = nb * 2 ^ 15 + tl * 2 ^ 7 + t / 2 := by
    unfold mkData; omega
  have hA17 : mkData nb tl t g / 2 ^ 17 = nb * 2 ^ 7 + tl / 2 := by
    unfold mkData; omega
  rw [hA9, hA17]
  omega

/-- Closed form of `set_twos_low`. -/
theorem set_twos_low_mkData (nb tl t g v : ℕ) (hnb : nb < 256) (htl : tl < 256)
    (ht : t < 256) (hg : g < 256) (hv : v < 256) :
    SpinLabel.set_twos_low ⟨mkData nb tl t g⟩ v = ⟨mkData nb v t g⟩ := by
  unfold SpinLabel.set_twos_low
  simp only
  rw [land_FF00FFFF, land_FF, mkData_div24 _ _ _ _ (by omega) (by omega) (by omega)]
  have h1 : nb % 2 ^ 8 * 2 ^ 24 + mkData nb tl t g % 2 ^ 16 =
      nb * 2 ^ 24 + t * 2 ^ 8 + g := by
    rw [Nat.mod_eq_of_lt (show nb < 2 ^ 8 by omega),
      show mkData nb tl t g % 2 ^ 16 = t * 2 ^ 8 + g from by unfold mkData; omega]
    ring
  have h2 : (v % 2 ^ 8) <<< 16 = v * 2 ^ 16 := by
    rw [Nat.shiftLeft_eq, Nat.mod_eq_of_lt (by omega)]
  rw [h1, h2, assemble_mid16 _ _ _ _ (by omega) (by omega) (by omega)]

/-- Closed form of `get_ket()`: sets `twos_low := twos`. -/
theorem get_ket_mkData (nb tl t g : ℕ) (hnb : nb < 256) (htl : tl < 256)
    (ht : t < 256) (hg : g < 256) :
    SpinLabel.get_ket ⟨mkData nb tl t g⟩ = ⟨mkData nb t t g⟩ := by
  unfold SpinLabel.get_ket
  simp only
  rw [land_FF00FFFF, land_FF00, mkData_div24 _ _ _ _ (by omega) (by omega) (by omega),
    mkData_div8 _ _ _ _ (by omega)]
  have h1 : nb % 2 ^ 8 * 2 ^ 24 + mkData nb tl t g % 2 ^ 16 =
      nb * 2 ^ 24 + t * 2 ^ 8 + g := by
    rw [Nat.mod_eq_of_lt (show nb < 2 ^ 8 by omega),
      show mkData nb tl t g % 2 ^ 16 = t * 2 ^ 8 + g from by unfold mkData; omega]
    ring
  have h2 : ((nb * 2 ^ 16 + tl * 2 ^ 8 + t) % 2 ^ 8 * 2 ^ 8) <<< 8 = t * 2 ^ 16 := by
    rw [Nat.shiftLeft_eq, show (nb * 2 ^ 16 + tl * 2 ^ 8 + t) % 2 ^ 8 = t by omega]
    ring
  rw [h1, h2, assemble_mid16 _ _ _ _ (by omega) (by omega) (by omega)]

/-- Closed form of `get_bra(dq)`: particle numbers add, `twos := twos_low`,
`twos_low` kept, point groups XOR. -/
theorem get_bra_mkData (nb tl t g nbd tld td gd : ℕ)
    (hnb : nb < 256) (htl : tl < 256) (ht : t < 256) (hg : g < 256)
    (hnbd : nbd < 256) (htld : tld < 256) (htd : td < 256) (hgd : gd < 256) :
    SpinLabel.get_bra ⟨mkData nb tl t g⟩ ⟨mkData nbd tld td gd⟩ =
      ⟨mkData ((nb + nbd) % 256) tl tl (g ^^^ gd)⟩ := by
  unfold SpinLabel.get_bra
  simp only
  rw [land_FF000000, land_FF000000, land_FF0000, land_FF, land_FF,
    mkData_div24 _ _ _ _ (by omega) (by omega) (by omega),
    mkData_div24 _ _ _ _ (by omega) (by omega) (by omega),
    mkData_div16 _ _ _ _ (by omega) (by omega)]
  have h1 : (nb % 2 ^ 8 * 2 ^ 24 + nbd % 2 ^ 8 * 2 ^ 24) % 2 ^ 32 =
      (nb + nbd) % 256 * 2 ^ 24 := by
    rw [Nat.mod_eq_of_lt (show nb < 2 ^ 8 by omega),
      Nat.mod_eq_of_lt (show nbd < 2 ^ 8 by omega)]
    omega
  have h2 : ((nb * 2 ^ 8 + tl) % 2 ^ 8 * 2 ^ 16) >>> 8 = tl * 2 ^ 8 := by
    rw [Nat.shiftRight_eq_div_pow, show (nb * 2 ^ 8 + tl) % 2 ^ 8 = tl by omega]
    omega
  have h3 : (nb * 2 ^ 8 + tl) % 2 ^ 8 * 2 ^ 16 = tl * 2 ^ 16 := by
    rw [show (nb * 2 ^ 8 + tl) % 2 ^ 8 = tl by omega]
  have h4 : mkData nb tl t g % 2 ^ 8 = g := by unfold mkData; omega
  have h5 : mkData nbd tld td gd % 2 ^ 8 = gd := by unfold mkData; omega
  rw [h1, h2, h3, h4, h5]
  have hG : g ^^^ gd < 256 := Nat.xor_lt_two_pow (n := 8) (by omega) (by omega)
  rw [lor_disjoint_eq_add ((nb + nbd) % 256) (tl * 2 ^ 8) 24 (by omega),
    show (nb + nbd) % 256 * 2 ^ 24 + tl * 2 ^ 8 =
      (nb + nbd) % 256 * 2 ^ 24 + tl * 2 ^ 8 + 0 by ring,
    assemble_mid16 _ tl tl 0 (by omega) (by omega) (by omega),
    show mkData ((nb + nbd) % 256) tl tl 0 =
      ((nb + nbd) % 256 * 2 ^ 16 + tl * 2 ^ 8 + tl) * 2 ^ 8 by unfold mkData; ring,
    lor_disjoint_eq_add _ (g ^^^ gd) 8 (by omega)]
  simp only [mkData, SpinLabel.mk.injEq]
  ring

/-- General closed form of `operator-` for an arbitrary 32-bit word: the top
byte is negated two's-complement, the low 24 bits are kept. -/
theorem neg_closed (d : ℕ) (hd : d < 2 ^ 32) :
    SpinLabel.neg ⟨d⟩ = ⟨d % 2 ^ 24 + (256 - d / 2 ^ 24) % 256 * 2 ^ 24⟩ := by
  unfold SpinLabel.neg lnot32
  rw [land_FFFFFF, land_FF000000, Nat.lor_comm,
    lor_disjoint_eq_add _ _ 24 (by omega)]
  simp only [SpinLabel.mk.injEq]
  omega

theorem neg_def (q : SpinLabel) : -q = q.neg := rfl

theorem add_def (p q : SpinLabel) : p + q = p.add q := rfl

/-- C9: for every valid `SpinLabel` `q` (a 32-bit word with canonical
`twos_low = twos` and spin byte at most 127): `-(-q) == q`, and the coupled
range `q + (-q)` has `count() ≥ 1` and contains the vacuum label
`SpinLabel(0, 0, 0)` (at multiplicity index 0). -/
theorem spinLabel_self_inverse_vacuum (q : SpinLabel) (h32 : q.data < 2 ^ 32)
    (hcanon : q.twos_low = q.twos) (hs : q.twos ≤ 127) :
    - -q = q ∧ 1 ≤ (q + -q).count ∧
      ∃ i, i < (q + -q).count ∧ (q + -q).idx i = SpinLabel.mk3 0 0 0 := by
  obtain ⟨d⟩ := q
  simp only [SpinLabel.twos, SpinLabel.twos_low, SpinLabel.pg] at hcanon hs
  simp only at h32
  have hnb' : d / 2 ^ 24 < 256 := by omega
  have hg' : d % 2 ^ 8 < 256 := by omega
  have hs' : d / 2 ^ 8 % 2 ^ 8 < 128 := by omega
  have hA : d / 2 ^ 16 = d / 2 ^ 24 * 2 ^ 8 + d / 2 ^ 16 % 2 ^ 8 := by
    rw [show d / 2 ^ 24 = d / 2 ^ 16 / 2 ^ 8 by rw [Nat.div_div_eq_div_mul]; norm_num]
    omega
  have hB : d / 2 ^ 8 = d / 2 ^ 16 * 2 ^ 8 + d / 2 ^ 8 % 2 ^ 8 := by
    rw [show d / 2 ^ 16 = d / 2 ^ 8 / 2 ^ 8 by rw [Nat.div_div_eq_div_mul]; norm_num]
    omega
  have hC : d = d / 2 ^ 8 * 2 ^ 8 + d % 2 ^ 8 := by omega
  have hd : (⟨d⟩ : SpinLabel) =
      ⟨mkData (d / 2 ^ 24) (d / 2 ^ 8 % 2 ^ 8) (d / 2 ^ 8 % 2 ^ 8) (d % 2 ^ 8)⟩ := by
    simp only [SpinLabel.mk.injEq]; unfold mkData; omega
  rw [hd]
  simp only [neg_def, add_def]
  rw [neg_mkData _ _ _ _ hnb' (by omega) (by omega) hg',
    neg_mkData _ _ _ _ (by omega) (by omega) (by omega) hg',
    add_mkData _ _ _ _ _ _ hnb' hs' hg' (by omega) hs' hg']
  refine ⟨?_, ?_, 0, ?_, ?_⟩
  · simp only [SpinLabel.mk.injEq, mkData]
    omega
  · unfold SpinLabel.count
    omega
  · unfold SpinLabel.count
    omega
  · rw [show (d / 2 ^ 24 + (256 - d / 2 ^ 24) % 256) % 256 = 0 by omega,
      Nat.max_self, Nat.min_self, Nat.sub_self, Nat.xor_self,
      idx_mkData 0 0 _ 0 0 (by omega) (by omega) (by omega) (by omega)]
    decide

/-- Witness for C9: the concrete one-electron label `SpinLabel(1, 1, 0)`
(data `0x01010100`). -/
theorem spinLabel_self_inverse_vacuum_witness :
    - -(⟨0x01010100⟩ : SpinLabel) = ⟨0x01010100⟩ ∧
      1 ≤ ((⟨0x01010100⟩ : SpinLabel) + -⟨0x01010100⟩).count ∧
      ∃ i, i < ((⟨0x01010100⟩ : SpinLabel) + -⟨0x01010100⟩).count ∧
        ((⟨0x01010100⟩ : SpinLabel) + -⟨0x01010100⟩).idx i = SpinLabel.mk3 0 0 0 :=
  spinLabel_self_inverse_vacuum ⟨0x01010100⟩ (by decide) (by decide) (by decide)

/-- C5: `wigner_3j`, `wigner_6j` and `wigner_9j` return exactly 0 (they take
the early-return branch, before any numeric work) whenever a selection rule
fails: for `wigner_3j` when `tma+tmb+tmc ≠ 0`, when any `(tj, tm)` pair has
mixed parity, or when the triangle condition on `(tja, tjb, tjc)` fails; for
`wigner_6j` (resp. `wigner_9j`) when any of its four (resp. six) triangle
conditions fails — for every value of the `sqrt_fact` table. -/
theorem wigner_selection_rules_zero :
    (∀ (sf : ℤ → ℚ) (tja tjb tjc tma tmb tmc : ℤ),
      tma + tmb + tmc ≠ 0 ∨ ¬CG.triangle tja tjb tjc ∨ (tja + tma) % 2 ≠ 0 ∨
        (tjb + tmb) % 2 ≠ 0 ∨ (tjc + tmc) % 2 ≠ 0 →
      CG.wigner_3j sf tja tjb tjc tma tmb tmc = 0) ∧
    (∀ (sf : ℤ → ℚ) (tja tjb tjc tjd tje tjf : ℤ),
      ¬CG.triangle tja tjb tjc ∨ ¬CG.triangle tja tje tjf ∨
        ¬CG.triangle tjd tjb tjf ∨ ¬CG.triangle tjd tje tjc →
      CG.wigner_6j sf tja tjb tjc tjd tje tjf = 0) ∧
    (∀ (sf : ℤ → ℚ) (tja tjb tjc tjd tje tjf tjg tjh tji : ℤ),
      ¬CG.triangle tja tjb tjc ∨ ¬CG.triangle tjd tje tjf ∨
        ¬CG.triangle tjg tjh tji ∨ ¬CG.triangle tja tjd tjg ∨
        ¬CG.triangle tjb tje tjh ∨ ¬CG.triangle tjc tjf tji →
      CG.wigner_9j sf tja tjb tjc tjd tje tjf tjg tjh tji = 0) := by
  refine ⟨?_, ?_, ?_⟩
  · intro sf tja tjb tjc tma tmb tmc h
    unfold CG.wigner_3j
    rw [if_pos h]
  · intro sf tja tjb tjc tjd tje tjf h
    unfold CG.wigner_6j
    rw [if_pos h]
  · intro sf tja tjb tjc tjd tje tjf tjg tjh tji h
    unfold CG.wigner_9j
    rw [if_pos h]

/-- Witness for C5 at concrete inputs: a violated magnetic-quantum-number sum
for `wigner_3j` and violated triangle conditions for `wigner_6j`/`wigner_9j`. -/
theorem wigner_selection_rules_zero_witness :
    CG.wigner_3j (fun _ => 1) 2 2 2 0 0 2 = 0 ∧
    CG.wigner_6j (fun _ => 1) 0 0 2 0 0 0 = 0 ∧
    CG.wigner_9j (fun _ => 1) 0 0 2 0 0 0 0 0 0 = 0 :=
  ⟨wigner_selection_rules_zero.1 (fun _ => 1) 2 2 2 0 0 2 (by decide),
    wigner_selection_rules_zero.2.1 (fun _ => 1) 0 0 2 0 0 0 (by decide),
    wigner_selection_rules_zero.2.2 (fun _ => 1) 0 0 2 0 0 0 0 0 0 (by decide)⟩

namespace Q3

theorem mul_def (x y : Q3) :
    x * y = ⟨x.re * y.re + 3 * x.rt * y.rt, x.re * y.rt + x.rt * y.re⟩ := rfl

theorem mul_one3 (x : Q3) : x * 1 = x := by
  obtain ⟨a, b⟩ := x
  simp only [mul_def, show (1 : Q3) = ⟨1, 0⟩ from rfl, Q3.mk.injEq]
  constructor <;> ring

theorem mul_right_comm3 (x y z : Q3) : x * y * z = x * z * y := by
  obtain ⟨a, b⟩ := x; obtain ⟨c, d⟩ := y; obtain ⟨e, f⟩ := z
  simp only [mul_def, Q3.mk.injEq]
  constructor <;> ring

theorem two_three (w : Q3) : w * Q3.ofRat 2 * Q3.ofRat 3 = w * Q3.ofRat 6 := by
  obtain ⟨a, b⟩ := w
  simp only [mul_def, ofRat, Q3.mk.injEq]
  constructor <;> ring

end Q3

theorem absFold (l : List OpElement) (c : Q3) :
    (l.map OpElement.abs).foldl (fun f e => f * e.factor) c = c := by
  induction l generalizing c with
  | nil => rfl
  | cons e l ih =>
    simp only [List.map_cons, List.foldl_cons]
    rw [show (OpElement.abs e).factor = 1 from rfl, Q3.mul_one3]
    exact ih c

theorem foldFactor (l : List OpElement) (c d : Q3) :
    l.foldl (fun f e => f * e.factor) (c * d) =
      l.foldl (fun f e => f * e.factor) c * d := by
  induction l generalizing c with
  | nil => rfl
  | cons e l ih =>
    simp only [List.foldl_cons]
    rw [Q3.mul_right_comm3 c d e.factor]
    exact ih (c * e.factor)

theorem opString_mulScalar_assoc (s : OpString) :
    (s.mulScalar (Q3.ofRat 2)).mulScalar (Q3.ofRat 3) = s.mulScalar (Q3.ofRat 6) := by
  obtain ⟨f, ops⟩ := s
  unfold OpString.mulScalar OpString.mkNorm
  simp only [OpString.mk.injEq]
  constructor
  · rw [absFold, foldFactor, foldFactor]
    exact Q3.two_three _
  · rw [List.map_map]
    have : OpElement.abs ∘ OpElement.abs = OpElement.abs := by
      funext e; rfl
    rw [this]

/-- C8: for every `OpExpr x`: `x + Zero == x` and `Zero + x == x`
structurally (`operator+` returns the other operand itself), `x * 0.0` is
`Zero`, and `(x * 2.0) * 3.0` equals `x * 6.0` (exact scalar algebra). -/
theorem opExpr_identity_laws (x : OpExpr) :
    opAdd x .zero = some x ∧ opAdd .zero x = some x ∧
    opScale x 0 = .zero ∧
    opScale (opScale x (Q3.ofRat 2)) (Q3.ofRat 3) = opScale x (Q3.ofRat 6) := by
  have h2 : (Q3.ofRat 2 : Q3) ≠ 0 := by decide
  have h3 : (Q3.ofRat 3 : Q3) ≠ 0 := by decide
  have h6 : (Q3.ofRat 6 : Q3) ≠ 0 := by decide
  refine ⟨?_, ?_, ?_, ?_⟩
  · cases x <;> rfl
  · cases x <;> rfl
  · cases x <;> simp [opScale]
  · cases x with
    | zero => rfl
    | elem e =>
      simp only [opScale, if_neg h2, if_neg h3, if_neg h6]
      congr 1
      unfold OpElement.mulScalar
      simp only [OpElement.mk.injEq, and_true, true_and]
      exact Q3.two_three e.factor
    | prod s =>
      simp only [opScale, if_neg h2, if_neg h3, if_neg h6]
      rw [opString_mulScalar_assoc]
    | sum strs =>
      simp only [opScale, if_neg h2, if_neg h3, if_neg h6, List.map_map]
      congr 1
      refine List.map_congr_left fun s _ => ?_
      exact opString_mulScalar_assoc s

namespace QCMPO

theorem su2p_ne (s : ℕ) : su2_factor_p s ≠ 0 := by
  unfold su2_factor_p
  split
  · intro hc
    rw [show (0 : Q3) = ⟨0, 0⟩ from rfl] at hc
    simp only [Q3.mk.injEq] at hc
    norm_num at hc
  · intro hc
    rw [show (0 : Q3) = ⟨0, 0⟩ from rfl] at hc
    simp only [Q3.mk.injEq] at hc
    norm_num at hc

theorem su2q_ne (s : ℕ) : su2_factor_q s ≠ 0 := by
  unfold su2_factor_q
  split
  · intro hc
    rw [show (0 : Q3) = ⟨0, 0⟩ from rfl, show (1 : Q3) = ⟨1, 0⟩ from rfl] at hc
    simp only [Q3.mk.injEq] at hc
    norm_num at hc
  · intro hc
    rw [show (0 : Q3) = ⟨0, 0⟩ from rfl, show Q3.sqrt3 = ⟨0, 1⟩ from rfl] at hc
    simp only [Q3.mk.injEq] at hc
    norm_num at hc

theorem complOf_elem (n1 n2 : OpNames) (si : List ℕ) (f1 f2 : Q3)
    (q1 q2 : SpinLabel) (hn : n1 = partnerName n2) (hq : q1 = SpinLabel.neg q2) :
    complOf (.elem ⟨n1, si, f1, q1⟩) (.elem ⟨n2, si, f2, q2⟩) :=
  ⟨⟨n1, si, f1, q1⟩, ⟨n2, si, f2, q2⟩, rfl, rfl, hn, rfl, hq⟩

end QCMPO

theorem neg_mk3 (nz : ℤ) (t g : ℕ) (ht : t < 256) (hg : g < 256) :
    SpinLabel.neg (SpinLabel.mk3 nz t g) = SpinLabel.mk3 (-nz) t g := by
  have h1 : (0:ℤ) ≤ nz % 256 := Int.emod_nonneg _ (by norm_num)
  have h2 : nz % 256 < 256 := Int.emod_lt_of_pos _ (by norm_num)
  rw [SpinLabel.mk3, SpinLabel.mk3, mk4_eq nz t t g ht ht hg,
    mk4_eq (-nz) t t g ht ht hg, neg_mkData _ _ _ _ (by omega) ht ht hg]
  simp only [SpinLabel.mk.injEq, mkData]
  have h3 : (0:ℤ) ≤ -nz % 256 := Int.emod_nonneg _ (by norm_num)
  have h4 : -nz % 256 < 256 := Int.emod_lt_of_pos _ (by norm_num)
  omega

theorem neg_small (d : ℕ) (hd : d < 2 ^ 24) : SpinLabel.neg ⟨d⟩ = ⟨d⟩ := by
  rw [neg_closed d (by omega)]
  simp only [SpinLabel.mk.injEq]
  omega

theorem forall2_map_range {R : OpExpr → OpExpr → Prop} {f g : ℕ → OpExpr} {n : ℕ}
    (h : ∀ k, k < n → R (f k) (g k)) :
    List.Forall₂ R ((List.range n).map f) ((List.range n).map g) := by
  induction n with
  | zero => exact List.Forall₂.nil
  | succ n ih =>
    rw [List.range_succ, List.map_append, List.map_append]
    exact List.rel_append (ih fun k hk => h k (by omega))
      (List.Forall₂.cons (h n (by omega)) List.Forall₂.nil)

theorem forall2_flatMap_range {R : OpExpr → OpExpr → Prop} {f g : ℕ → List OpExpr}
    {n : ℕ} (h : ∀ k, k < n → List.Forall₂ R (f k) (g k)) :
    List.Forall₂ R ((List.range n).flatMap f) ((List.range n).flatMap g) := by
  induction n with
  | zero => exact List.Forall₂.nil
  | succ n ih =>
    rw [List.range_succ, List.flatMap_append, List.flatMap_append]
    refine List.rel_append (ih fun k hk => h k (by omega)) ?_
    simp only [List.flatMap_cons, List.flatMap_nil, List.append_nil]
    exact h n (by omega)

/-- C2, counterexample: for the toy 4-orbital Hamiltonian (all irreps 0,
vacuum label 0), the right operator names column built at site 1 is NOT
element-wise equal to the left operator names row built at site 0 — already
their first entries differ (`I` vs `H`). -/
theorem qcmpo_adjacent_names_counterexample :
    QCMPO.rightOperatorNames ⟨4, fun _ => 0, ⟨0⟩⟩ 1 ≠
      QCMPO.leftOperatorNames ⟨4, fun _ => 0, ⟨0⟩⟩ 0 := by
  decide

/-- C2 (amended): for every Hamiltonian (point-group bytes, vacuum label with
zero particle-number byte) and every site `m` in `1..n_sites-1`, the right
operator names column vector at site `m` and the left operator names row
vector at site `m-1` have the same length and correspond index-for-index:
each pair consists of elementary operators with the same site indices, with
complementary-partner operator names (`H↔I`, `C↔R`, `D↔RD`, `A↔P`, `AD↔PD`,
`B↔Q`), and with negated quantum labels — not with equal entries. -/
theorem qcmpo_adjacent_names (H : QCHamil) (m : ℕ) (hm1 : 1 ≤ m)
    (hm2 : m < H.n_sites) (hsym : ∀ i, H.orb_sym i < 256)
    (hvac : H.vaccum.data < 2 ^ 24) :
    (QCMPO.rightOperatorNames H m).length =
      (QCMPO.leftOperatorNames H (m - 1)).length ∧
    List.Forall₂ QCMPO.complOf (QCMPO.rightOperatorNames H m)
      (QCMPO.leftOperatorNames H (m - 1)) := by
  have hvac' : SpinLabel.neg H.vaccum = H.vaccum := neg_small H.vaccum.data hvac
  have hF : List.Forall₂ QCMPO.complOf (QCMPO.rightOperatorNames H m)
      (QCMPO.leftOperatorNames H (m - 1)) := by
    unfold QCMPO.rightOperatorNames QCMPO.leftOperatorNames
    rw [if_neg (by omega), if_neg (by omega),
      show m - 1 + 1 = m by omega, show H.n_sites - m = H.n_sites - m by rfl]
    refine List.rel_append (List.rel_append (List.rel_append (List.rel_append
      (List.rel_append (List.rel_append (List.rel_append ?_ ?_) ?_) ?_) ?_) ?_) ?_) ?_
    · -- [I, H] against [H, I]
      refine List.Forall₂.cons ?_ (List.Forall₂.cons ?_ List.Forall₂.nil)
      · exact QCMPO.complOf_elem .I .H [] 1 1 _ _ rfl hvac'.symm
      · exact QCMPO.complOf_elem .H .I [] 1 1 _ _ rfl hvac'.symm
    · -- R_j against C_j
      refine forall2_map_range fun k hk => ?_
      unfold QCMPO.tr_op QCMPO.c_op
      exact QCMPO.complOf_elem .R .C [k] _ _ _ _ rfl
        (by rw [neg_mk3 1 1 (H.orb_sym k) (by omega) (hsym k)])
    · -- RD_j against D_j
      refine forall2_map_range fun k hk => ?_
      unfold QCMPO.trd_op QCMPO.d_op
      exact QCMPO.complOf_elem .RD .D [k] _ _ _ _ rfl
        (by rw [neg_mk3 (-1) 1 (H.orb_sym k) (by omega) (hsym k)]; norm_num)
    · -- D_j against RD_j
      refine forall2_map_range fun k hk => ?_
      unfold QCMPO.d_op QCMPO.trd_op
      exact QCMPO.complOf_elem .D .RD [m + k] _ _ _ _ rfl
        (by rw [neg_mk3 1 1 (H.orb_sym (m + k)) (by omega) (hsym (m + k))])
    · -- C_j against R_j
      refine forall2_map_range fun k hk => ?_
      unfold QCMPO.c_op QCMPO.tr_op
      exact QCMPO.complOf_elem .C .R [m + k] _ _ _ _ rfl
        (by rw [neg_mk3 (-1) 1 (H.orb_sym (m + k)) (by omega) (hsym (m + k))]; norm_num)
    · -- su2·P(j,k,s) against A(j,k,s)
      refine forall2_flatMap_range fun s hs => forall2_flatMap_range fun j hj =>
        forall2_map_range fun k hk => ?_
      have hxor : H.orb_sym j ^^^ H.orb_sym k < 256 :=
        Nat.xor_lt_two_pow (n := 8) (hsym j) (hsym k)
      unfold QCMPO.p_op QCMPO.a_op
      rw [opScale, if_neg (QCMPO.su2p_ne s)]
      exact QCMPO.complOf_elem .P .A [j, k, s] _ _ _ _ rfl
        (by rw [neg_mk3 2 (s * 2) _ (by omega) hxor])
    · -- su2·PD(j,k,s) against AD(j,k,s)
      refine forall2_flatMap_range fun s hs => forall2_flatMap_range fun j hj =>
        forall2_map_range fun k hk => ?_
      have hxor : H.orb_sym j ^^^ H.orb_sym k < 256 :=
        Nat.xor_lt_two_pow (n := 8) (hsym j) (hsym k)
      unfold QCMPO.pd_op QCMPO.ad_op
      rw [opScale, if_neg (QCMPO.su2p_ne s)]
      exact QCMPO.complOf_elem .PD .AD [j, k, s] _ _ _ _ rfl
        (by rw [neg_mk3 (-2) (s * 2) _ (by omega) hxor]; norm_num)
    · -- su2·Q(j,k,s) against B(j,k,s)
      refine forall2_flatMap_range fun s hs => forall2_flatMap_range fun j hj =>
        forall2_map_range fun k hk => ?_
      have hxor : H.orb_sym j ^^^ H.orb_sym k < 256 :=
        Nat.xor_lt_two_pow (n := 8) (hsym j) (hsym k)
      unfold QCMPO.q_op QCMPO.b_op
      rw [opScale, if_neg (QCMPO.su2q_ne s)]
      exact QCMPO.complOf_elem .Q .B [j, k, s] _ _ _ _ rfl
        (by rw [neg_mk3 0 (s * 2) _ (by omega) hxor]; norm_num)
  exact ⟨hF.length_eq, hF⟩

/-- Witness for C2 (amended) at the toy 4-orbital Hamiltonian, adjacent
sites 1 and 0. -/
theorem qcmpo_adjacent_names_witness :
    (QCMPO.rightOperatorNames ⟨4, fun _ => 0, ⟨0⟩⟩ 1).length =
      (QCMPO.leftOperatorNames ⟨4, fun _ => 0, ⟨0⟩⟩ 0).length ∧
    List.Forall₂ QCMPO.complOf (QCMPO.rightOperatorNames ⟨4, fun _ => 0, ⟨0⟩⟩ 1)
      (QCMPO.leftOperatorNames ⟨4, fun _ => 0, ⟨0⟩⟩ 0) :=
  qcmpo_adjacent_names ⟨4, fun _ => 0, ⟨0⟩⟩ 1 (by norm_num) (by norm_num)
    (fun _ => by norm_num) (by norm_num)

/-- C7: `StateInfo::filter(a, b, target)` recomputes each of `a`'s counts
(capping against the original `b`) and only afterwards recomputes `b`'s
counts against the already-mutated `a` — the second pass reads `a`'s updated
counts, not a pre-mutation snapshot.  The second conjunct exhibits a concrete
input on which the two semantics genuinely differ. -/
theorem stateInfo_filter_sequential_dependency :
    (∀ (a b : StateInfo) (target : SpinLabel),
      StateInfo.filter a b target =
        (StateInfo.filterPass a b target,
          StateInfo.filterPass b (StateInfo.filterPass a b target) target)) ∧
    StateInfo.filter ⟨[(⟨0⟩, 7)], 7⟩ ⟨[(⟨33554432⟩, 2), (⟨33554432⟩, 9)], 11⟩
        ⟨33554432⟩ ≠
      StateInfo.snapshotFilter ⟨[(⟨0⟩, 7)], 7⟩ ⟨[(⟨33554432⟩, 2), (⟨33554432⟩, 9)], 11⟩
        ⟨33554432⟩ :=
  ⟨fun _ _ _ => rfl, by decide⟩

theorem collectMerge_sum_le (l : List (SpinLabel × ℕ)) :
    ((StateInfo.collectMerge l).map Prod.snd).sum ≤ (l.map Prod.snd).sum := by
  induction l with
  | nil => simp [StateInfo.collectMerge]
  | cons p rest ih =>
    obtain ⟨q, x⟩ := p
    rw [StateInfo.collectMerge]
    by_cases hx : x = 0
    · rw [if_pos hx]
      simp only [List.map_cons, List.sum_cons, hx]
      omega
    · rw [if_neg hx]
      rcases hcm : StateInfo.collectMerge rest with _ | ⟨⟨q2, x2⟩, tail⟩
      · simp only [List.map_cons, List.sum_cons, List.map_nil, List.sum_nil]
        omega
      · rw [hcm] at ih
        dsimp only
        simp only [List.map_cons, List.sum_cons] at ih
        by_cases hq : q2 = q
        · rw [if_pos hq]
          simp only [List.map_cons, List.sum_cons]
          omega
        · rw [if_neg hq]
          simp only [List.map_cons, List.sum_cons]
          omega

theorem collectMerge_sum_eq (l : List (SpinLabel × ℕ))
    (h : (l.map Prod.snd).sum ≤ 65535) :
    ((StateInfo.collectMerge l).map Prod.snd).sum = (l.map Prod.snd).sum := by
  induction l with
  | nil => simp [StateInfo.collectMerge]
  | cons p rest ih =>
    obtain ⟨q, x⟩ := p
    simp only [List.map_cons, List.sum_cons] at h
    have ih2 := ih (by omega)
    rw [StateInfo.collectMerge]
    by_cases hx : x = 0
    · rw [if_pos hx]
      simp only [List.map_cons, List.sum_cons, hx, ih2]
      omega
    · rw [if_neg hx]
      rcases hcm : StateInfo.collectMerge rest with _ | ⟨⟨q2, x2⟩, tail⟩
      · rw [hcm] at ih2
        simp only [List.map_nil, List.sum_nil] at ih2
        simp only [List.map_cons, List.sum_cons, List.map_nil, List.sum_nil]
        omega
      · rw [hcm] at ih2
        dsimp only
        simp only [List.map_cons, List.sum_cons] at ih2
        by_cases hq : q2 = q
        · rw [if_pos hq]
          simp only [List.map_cons, List.sum_cons]
          omega
        · rw [if_neg hq]
          simp only [List.map_cons, List.sum_cons]
          omega

theorem sum_takeWhile_le (p : SpinLabel × ℕ → Bool) (l : List (SpinLabel × ℕ)) :
    ((l.takeWhile p).map Prod.snd).sum ≤ (l.map Prod.snd).sum := by
  conv_rhs => rw [← List.takeWhile_append_dropWhile p l]
  rw [List.map_append, List.sum_append]
  omega

/-- C4, counterexample: for `A = B = {(n=1, S=1/2) : 1}` (one state in a
spin-doublet sector) and an all-admitting target, the non-abelian coupling
produces `count = 2` labels, so `n_states_total = 2 > 1 = dA * dB`: the
claimed bound `n_states_total ≤ dA * dB` is false on the code. -/
theorem stateInfo_tensor_product_counterexample :
    ¬((StateInfo.tensor_product ⟨[(⟨16843008⟩, 1)], 1⟩ ⟨[(⟨16843008⟩, 1)], 1⟩
        ⟨2147483647⟩).n_states_total ≤
      (((⟨[(⟨16843008⟩, 1)], 1⟩ : StateInfo).states.map Prod.snd).sum) *
      (((⟨[(⟨16843008⟩, 1)], 1⟩ : StateInfo).states.map Prod.snd).sum)) := by
  decide

/-- C4 (amended): the total dimension of `tensor_product(a, b, target)` is
bounded by `Σ_{i,j} count(q_a[i] + q_b[j]) · min(n_a[i]·n_b[j], 65535)` (the
sum over the raw coupled list, NOT by `dA·dB`, which non-abelian multiplicity
counts can exceed), with equality whenever the target admits every coupled
label and no saturation occurs in `collect` (grand total at most 65535). -/
theorem stateInfo_tensor_product_total (a b : StateInfo) (target : SpinLabel) :
    (StateInfo.tensor_product a b target).n_states_total ≤
      ((StateInfo.tpRaw a b).map Prod.snd).sum ∧
    ((∀ p ∈ StateInfo.tpRaw a b, p.1.data ≤ target.data) →
      ((StateInfo.tpRaw a b).map Prod.snd).sum ≤ 65535 →
      (StateInfo.tensor_product a b target).n_states_total =
        ((StateInfo.tpRaw a b).map Prod.snd).sum) := by
  have hperm : List.Perm ((StateInfo.tpRaw a b).insertionSort leData)
      (StateInfo.tpRaw a b) := List.perm_insertionSort leData _
  have hsum : (((StateInfo.tpRaw a b).insertionSort leData).map Prod.snd).sum =
      ((StateInfo.tpRaw a b).map Prod.snd).sum :=
    (hperm.map Prod.snd).sum_eq
  have hTP : (StateInfo.tensor_product a b target).n_states_total =
      ((StateInfo.collectMerge (((StateInfo.tpRaw a b).insertionSort
        leData).takeWhile (fun p => p.1.data ≤ target.data))).map Prod.snd).sum := rfl
  constructor
  · rw [hTP]
    calc ((StateInfo.collectMerge (((StateInfo.tpRaw a b).insertionSort
        leData).takeWhile (fun p => p.1.data ≤ target.data))).map Prod.snd).sum
      ≤ ((((StateInfo.tpRaw a b).insertionSort leData).takeWhile
          (fun p => p.1.data ≤ target.data)).map Prod.snd).sum := collectMerge_sum_le _
      _ ≤ (((StateInfo.tpRaw a b).insertionSort leData).map Prod.snd).sum :=
          sum_takeWhile_le _ _
      _ = ((StateInfo.tpRaw a b).map Prod.snd).sum := hsum
  · intro hall hcap
    have htake : ((StateInfo.tpRaw a b).insertionSort leData).takeWhile
          (fun p => p.1.data ≤ target.data) =
        (StateInfo.tpRaw a b).insertionSort leData := by
      rw [List.takeWhile_eq_self_iff]
      intro p hp
      simpa using hall p (hperm.mem_iff.mp hp)
    rw [hTP, htake, collectMerge_sum_eq _ (by rw [hsum]; exact hcap), hsum]

/-- Witness for C4 (amended) at a concrete abelian input where equality
holds: both hypotheses are satisfied and the total is 1. -/
theorem stateInfo_tensor_product_total_witness :
    (StateInfo.tensor_product ⟨[(⟨0⟩, 1)], 1⟩ ⟨[(⟨0⟩, 1)], 1⟩
        ⟨2147483647⟩).n_states_total ≤
      ((StateInfo.tpRaw ⟨[(⟨0⟩, 1)], 1⟩ ⟨[(⟨0⟩, 1)], 1⟩).map Prod.snd).sum ∧
    ((∀ p ∈ StateInfo.tpRaw ⟨[(⟨0⟩, 1)], 1⟩ ⟨[(⟨0⟩, 1)], 1⟩,
        p.1.data ≤ (⟨2147483647⟩ : SpinLabel).data) →
      ((StateInfo.tpRaw ⟨[(⟨0⟩, 1)], 1⟩ ⟨[(⟨0⟩, 1)], 1⟩).map Prod.snd).sum ≤ 65535 →
      (StateInfo.tensor_product ⟨[(⟨0⟩, 1)], 1⟩ ⟨[(⟨0⟩, 1)], 1⟩
          ⟨2147483647⟩).n_states_total =
        ((StateInfo.tpRaw ⟨[(⟨0⟩, 1)], 1⟩ ⟨[(⟨0⟩, 1)], 1⟩).map Prod.snd).sum) :=
  stateInfo_tensor_product_total ⟨[(⟨0⟩, 1)], 1⟩ ⟨[(⟨0⟩, 1)], 1⟩ ⟨2147483647⟩

theorem spinLabel_data_inj {x y : SpinLabel} (h : x.data = y.data) : x = y := by
  cases x; cases y; simpa using h

theorem mkData_inj (a b c d a₂ b₂ c₂ d₂ : ℕ) (ha : a < 256) (hb : b < 256)
    (hc : c < 256) (hd : d < 256) (ha₂ : a₂ < 256) (hb₂ : b₂ < 256)
    (hc₂ : c₂ < 256) (hd₂ : d₂ < 256)
    (h : mkData a b c d = mkData a₂ b₂ c₂ d₂) :
    a = a₂ ∧ b = b₂ ∧ c = c₂ ∧ d = d₂ := by
  unfold mkData at h
  omega

/-- A canonical label is its own byte reassembly, and the bytes are bounded. -/
theorem okLabel_bytes (q : SpinLabel) (h : okLabel q) :
    q = ⟨mkData (q.data / 2 ^ 24) q.twos q.twos q.pg⟩ ∧
      q.data / 2 ^ 24 < 256 ∧ q.twos < 128 ∧ q.pg < 256 := by
  obtain ⟨htl, ht, hlt⟩ := h
  cases q with
  | mk d =>
    unfold SpinLabel.twos SpinLabel.twos_low SpinLabel.pg at *
    dsimp only at *
    simp only [SpinLabel.mk.injEq, mkData]
    have hA := Nat.div_add_mod d (2 ^ 8)
    have hB := Nat.div_add_mod (d / 2 ^ 8) (2 ^ 8)
    have hC := Nat.div_add_mod (d / 2 ^ 16) (2 ^ 8)
    have hD : d / 2 ^ 8 / 2 ^ 8 = d / 2 ^ 16 := by
      rw [Nat.div_div_eq_div_mul]; norm_num
    have hE : d / 2 ^ 16 / 2 ^ 8 = d / 2 ^ 24 := by
      rw [Nat.div_div_eq_div_mul]; norm_num
    have hg : d % 2 ^ 8 < 256 := by omega
    generalize hgg : d % 2 ^ 8 = g at *
    generalize h8 : d / 2 ^ 8 = x8 at *
    generalize h16 : d / 2 ^ 16 = x16 at *
    generalize h24 : d / 2 ^ 24 = x24 at *
    exact ⟨by omega, by omega, ht, hg⟩

theorem prefixSums_length (l : List ℕ) : (prefixSums l).length = l.length := by
  induction l with
  | nil => rfl
  | cons s rest ih => simp [prefixSums, ih]

theorem prefixSums_getD_zero (l : List ℕ) : (prefixSums l).getD 0 0 = 0 := by
  cases l <;> rfl

theorem prefixSums_getD (l : List ℕ) (i : ℕ) (h : i < l.length) :
    (prefixSums l).getD i 0 = (l.take i).sum := by
  induction l generalizing i with
  | nil => simp at h
  | cons s rest ih =>
    cases i with
    | zero => rfl
    | succ j =>
      have hj : j < rest.length := by simpa using h
      have hlen : j < ((prefixSums rest).map (· + s)).length := by
        rw [List.length_map, prefixSums_length]; exact hj
      have hlen2 : j < (prefixSums rest).length := by
        rw [prefixSums_length]; exact hj
      simp only [prefixSums, List.getD_cons_succ]
      rw [List.getD_eq_getElem _ _ hlen, List.getElem_map,
        ← List.getD_eq_getElem _ _ hlen2, ih j hj, List.take_succ_cons,
        List.sum_cons]
      omega

/-- Pairwise through `flatMap`, from pairwise inside each block and pairwise
across block pairs. -/
theorem pairwise_flatMap_of {α β : Type} {l : List α} {f : α → List β}
    {R : β → β → Prop}
    (hin : ∀ a ∈ l, (f a).Pairwise R)
    (hcross : l.Pairwise (fun a b => ∀ x ∈ f a, ∀ y ∈ f b, R x y)) :
    (l.flatMap f).Pairwise R := by
  induction l with
  | nil => simp
  | cons a l ih =>
    rw [List.flatMap_cons, List.pairwise_append]
    rw [List.pairwise_cons] at hcross
    refine ⟨hin a (List.mem_cons_self a l),
      ih (fun b hb => hin b (List.mem_cons_of_mem a hb)) hcross.2, ?_⟩
    intro x hx y hy
    obtain ⟨b, hb, hyb⟩ := List.mem_flatMap.mp hy
    exact hcross.1 b hb x hx y hyb

theorem initialized_quanta (bra ket : StateInfo) (dq : SpinLabel)
    (isf wfn : Bool) :
    (SparseMatrixInfo.initialized bra ket dq isf wfn).quanta =
      (ket.states.flatMap (initQs bra dq wfn)).insertionSort leLabel := rfl

theorem initialized_bra (bra ket : StateInfo) (dq : SpinLabel)
    (isf wfn : Bool) :
    (SparseMatrixInfo.initialized bra ket dq isf wfn).n_states_bra =
      ((ket.states.flatMap (initQs bra dq wfn)).insertionSort leLabel).map
        (fun q => StateInfo.getStates bra (bra.find_state (q.get_bra dq))) := rfl

theorem initialized_ket (bra ket : StateInfo) (dq : SpinLabel)
    (isf wfn : Bool) :
    (SparseMatrixInfo.initialized bra ket dq isf wfn).n_states_ket =
      ((ket.states.flatMap (initQs bra dq wfn)).insertionSort leLabel).map
        (fun q => StateInfo.getStates ket
          (ket.find_state (if wfn then SpinLabel.neg q.get_ket else q.get_ket))) := rfl

theorem initialized_total (bra ket : StateInfo) (dq : SpinLabel)
    (isf wfn : Bool) :
    (SparseMatrixInfo.initialized bra ket dq isf wfn).n_states_total =
      prefixSums (List.zipWith (· * ·)
        (SparseMatrixInfo.initialized bra ket dq isf wfn).n_states_bra
        (SparseMatrixInfo.initialized bra ket dq isf wfn).n_states_ket) := rfl

/-- Every label pushed for one ket entry recovers the loop label `q` when its
`twos_low` byte is reset, and the pushed labels are pairwise distinct (their
`twos_low` bytes walk the coupled range in steps of two). -/
theorem initQs_shape (bra : StateInfo) (dq : SpinLabel) (wfn : Bool)
    (pk : SpinLabel × ℕ) (nb t g nbd td gd : ℕ)
    (hnb : nb < 256) (ht : t < 128) (hg : g < 256)
    (hnbd : nbd < 256) (htd : td < 128) (hgd : gd < 256)
    (hq0 : initQ0 wfn pk.1 = ⟨mkData nb t t g⟩)
    (hdqe : dq = ⟨mkData nbd td td gd⟩) :
    (∀ x ∈ initQs bra dq wfn pk, x.set_twos_low x.twos = initQ0 wfn pk.1) ∧
    (initQs bra dq wfn pk).Pairwise (fun x y => x ≠ y) := by
  have hG : gd ^^^ g < 256 := Nat.xor_lt_two_pow (n := 8) (by omega) (by omega)
  have hbs : dq + initQ0 wfn pk.1 =
      ⟨mkData ((nbd + nb) % 256) (max td t - min td t) (td + t) (gd ^^^ g)⟩ := by
    rw [hq0, hdqe]
    exact add_mkData nbd td gd nb t g hnbd htd hgd hnb ht hg
  have hcount : (dq + initQ0 wfn pk.1).count =
      (td + t) / 2 - (max td t - min td t) / 2 + 1 := by
    rw [hbs]
    exact count_mkData _ _ _ _ (Nat.mod_lt _ (by norm_num)) (by omega) (by omega)
      hG (by omega)
  have hval : ∀ k, k < (dq + initQ0 wfn pk.1).count →
      (initQ0 wfn pk.1).set_twos_low ((dq + initQ0 wfn pk.1).idx k).twos =
        ⟨mkData nb (max td t - min td t + 2 * k) t g⟩ := by
    intro k hkc
    rw [hcount] at hkc
    rw [hbs, idx_mkData _ _ _ _ _ (Nat.mod_lt _ (by norm_num)) (by omega)
        (by omega) hG,
      mkData_twos _ _ _ _ (Nat.mod_lt _ (by norm_num)) (by omega) (by omega) hG,
      hq0, set_twos_low_mkData _ _ _ _ _ hnb (by omega) (by omega) hg (by omega)]
  constructor
  · intro x hx
    unfold initQs at hx
    rw [List.mem_filterMap] at hx
    obtain ⟨k, hk, hfk⟩ := hx
    rw [List.mem_range] at hk
    split at hfk
    · rw [Option.some_inj] at hfk
      rw [← hfk, hval k hk, hq0]
      rw [hcount] at hk
      rw [mkData_twos _ _ _ _ hnb (by omega) (by omega) hg,
        set_twos_low_mkData _ _ _ _ _ hnb (by omega) (by omega) hg (by omega)]
    · exact absurd hfk (by simp)
  · unfold initQs
    rw [List.pairwise_filterMap]
    have hbase : (List.range (dq + initQ0 wfn pk.1).count).Pairwise (· < ·) :=
      List.pairwise_lt_range _
    refine hbase.imp_of_mem ?_
    intro k j hk hj hkj x hx y hy
    rw [List.mem_range] at hk hj
    split at hx
    · rw [Option.mem_def, Option.some_inj] at hx
      split at hy
      · rw [Option.mem_def, Option.some_inj] at hy
        rw [← hx, ← hy, hval k hk, hval j hj]
        intro heq
        rw [hcount] at hk hj
        simp only [SpinLabel.mk.injEq, mkData] at heq
        omega
      · exact absurd hy (by simp)
    · exact absurd hx (by simp)

/-- The loop label `wfn ? -q : q` is injective on canonical labels. -/
theorem initQ0_inj (wfn : Bool) (p q : SpinLabel) (hp : okLabel p) (hq : okLabel q)
    (h : initQ0 wfn p = initQ0 wfn q) : p = q := by
  cases wfn with
  | false => simpa [initQ0] using h
  | true =>
    obtain ⟨hpe, hnbp, htp, hgp⟩ := okLabel_bytes p hp
    obtain ⟨hqe, hnbq, htq, hgq⟩ := okLabel_bytes q hq
    have h : SpinLabel.neg p = SpinLabel.neg q := h
    rw [hpe, hqe,
      neg_mkData _ _ _ _ hnbp (by omega) (by omega) hgp,
      neg_mkData _ _ _ _ hnbq (by omega) (by omega) hgq] at h
    simp only [SpinLabel.mk.injEq] at h
    obtain ⟨h1, h2, h3, h4⟩ := mkData_inj _ _ _ _ _ _ _ _
      (Nat.mod_lt _ (by norm_num)) (by omega) (by omega) hgp
      (Nat.mod_lt _ (by norm_num)) (by omega) (by omega) hgq h
    rw [hpe, hqe]
    simp only [SpinLabel.mk.injEq, mkData]
    omega

/-- `initQs` under canonical labels: recovery of the loop label, and pairwise
distinctness inside one ket entry. -/
theorem initQs_props (bra : StateInfo) (dq : SpinLabel) (wfn : Bool)
    (pk : SpinLabel × ℕ) (hk : okLabel pk.1) (hdq : okLabel dq) :
    (∀ x ∈ initQs bra dq wfn pk, x.set_twos_low x.twos = initQ0 wfn pk.1) ∧
    (initQs bra dq wfn pk).Pairwise (fun x y => x ≠ y) := by
  obtain ⟨hLeq, hnbL, htL, hgL⟩ := okLabel_bytes pk.1 hk
  obtain ⟨hDeq, hnbD, htD, hgD⟩ := okLabel_bytes dq hdq
  cases wfn with
  | false =>
    exact initQs_shape bra dq false pk _ _ _ _ _ _ hnbL htL hgL hnbD htD hgD
      hLeq hDeq
  | true =>
    refine initQs_shape bra dq true pk ((256 - pk.1.data / 2 ^ 24) % 256)
      pk.1.twos pk.1.pg _ _ _ (Nat.mod_lt _ (by norm_num)) htL hgL hnbD htD hgD
      ?_ hDeq
    show SpinLabel.neg pk.1 = _
    conv_lhs => rw [hLeq]
    exact neg_mkData _ _ _ _ hnbL (by omega) (by omega) hgL

/-- The prefix-sum loop satisfies its defining recurrence on the zipped
per-block sizes. -/
theorem prefix_recurrence (s : List SpinLabel) (fb fk : SpinLabel → ℕ) (i : ℕ)
    (hi : i + 1 < s.length) :
    (prefixSums (List.zipWith (· * ·) (s.map fb) (s.map fk))).getD (i + 1) 0 =
      (prefixSums (List.zipWith (· * ·) (s.map fb) (s.map fk))).getD i 0 +
        (s.map fb).getD i 0 * (s.map fk).getD i 0 := by
  have hzl : (List.zipWith (· * ·) (s.map fb) (s.map fk)).length = s.length := by
    simp
  rw [prefixSums_getD _ _ (by rw [hzl]; omega),
    prefixSums_getD _ _ (by rw [hzl]; omega),
    List.sum_take_succ _ i (by rw [hzl]; omega)]
  congr 1
  rw [List.getElem_zipWith,
    List.getD_eq_getElem _ _ (by rw [List.length_map]; omega),
    List.getD_eq_getElem _ _ (by rw [List.length_map]; omega)]

/-- Witness for C1 at a concrete input: deallocating the top block succeeds. -/
theorem stackAllocator_deallocate_lifo_witness :
    (StackAllocator.deallocate ⟨100, 30, 0⟩ 20 10 =
      some { size := 100, used := 20, shift := 0 } ↔
      10 ≤ 30 ∧ 20 = 30 - 10) ∧
    (¬(10 ≤ 30 ∧ 20 = 30 - 10) →
      StackAllocator.deallocate ⟨100, 30, 0⟩ 20 10 = none) ∧
    lifoScenario = none :=
  stackAllocator_deallocate_lifo ⟨100, 30, 0⟩ 20 10 (by decide)

/-- C6: for every `SparseMatrixInfo` produced by `initialize` from canonical,
pairwise-distinct ket labels and a canonical `dq`: `n_states_total[0] = 0`;
`n_states_total[i+1] = n_states_total[i] + n_states_bra[i] * n_states_ket[i]`
for `i` in `0..n-2`; `get_total_memory() = n_states_total[n-1] +
n_states_bra[n-1] * n_states_ket[n-1]` when `n >= 1`; and the quanta table is
strictly sorted, so every label differs from its neighbours (no duplicates). -/
theorem sparseMatrixInfo_initialize_invariants (bra ket : StateInfo)
    (dq : SpinLabel) (isf wfn : Bool) (info : SparseMatrixInfo)
    (hinfo : info = SparseMatrixInfo.initialized bra ket dq isf wfn)
    (hket : ∀ p ∈ ket.states, okLabel p.1)
    (hdist : ket.states.Pairwise (fun p q => p.1 ≠ q.1))
    (hdq : okLabel dq) :
    info.n_states_total.getD 0 0 = 0 ∧
    (∀ i, i + 1 < info.quanta.length →
      info.n_states_total.getD (i + 1) 0 =
        info.n_states_total.getD i 0 +
          info.n_states_bra.getD i 0 * info.n_states_ket.getD i 0) ∧
    (1 ≤ info.quanta.length →
      info.get_total_memory =
        info.n_states_total.getD (info.quanta.length - 1) 0 +
          info.n_states_bra.getD (info.quanta.length - 1) 0 *
            info.n_states_ket.getD (info.quanta.length - 1) 0) ∧
    List.Chain' (fun x y => x.data < y.data) info.quanta := by
  subst hinfo
  refine ⟨?_, ?_, ?_, ?_⟩
  · rw [initialized_total]
    exact prefixSums_getD_zero _
  · intro i hi
    rw [initialized_quanta] at hi
    rw [initialized_total, initialized_bra, initialized_ket]
    exact prefix_recurrence _ _ _ i hi
  · intro hn
    rw [initialized_quanta] at hn
    unfold SparseMatrixInfo.get_total_memory
    rw [if_neg (by rw [initialized_quanta]; omega)]
  · rw [initialized_quanta]
    have hsorted : List.Pairwise leLabel
        ((ket.states.flatMap (initQs bra dq wfn)).insertionSort leLabel) :=
      List.sorted_insertionSort leLabel _
    have hqs_ne : (ket.states.flatMap (initQs bra dq wfn)).Pairwise
        (fun x y => x ≠ y) := by
      refine pairwise_flatMap_of
        (fun p hp => (initQs_props bra dq wfn p (hket p hp) hdq).2) ?_
      refine hdist.imp_of_mem ?_
      intro p₂ q₂ hp₂ hq₂ hne x hx y hy heq
      have h₁ := (initQs_props bra dq wfn p₂ (hket p₂ hp₂) hdq).1 x hx
      have h₂ := (initQs_props bra dq wfn q₂ (hket q₂ hq₂) hdq).1 y hy
      rw [heq] at h₁
      exact hne (initQ0_inj wfn p₂.1 q₂.1 (hket p₂ hp₂) (hket q₂ hq₂)
        (h₁.symm.trans h₂))
    have hne : ((ket.states.flatMap (initQs bra dq wfn)).insertionSort
        leLabel).Pairwise (fun x y => x ≠ y) :=
      ((List.perm_insertionSort leLabel _).pairwise_iff
        (fun h => Ne.symm h)).mpr hqs_ne
    have hlt : ((ket.states.flatMap (initQs bra dq wfn)).insertionSort
        leLabel).Pairwise (fun x y : SpinLabel => x.data < y.data) := by
      refine (hsorted.and hne).imp ?_
      rintro a b ⟨hle, hne₂⟩
      exact lt_of_le_of_ne hle (fun hd => hne₂ (spinLabel_data_inj hd))
    exact hlt.chain'

/-- C3 counterexample: `iadd`'s accumulation guard is `scale != 0.0`, not the
`TINY` threshold: with `scale = 1e-30` and `b.factor = 1` the net scale
`scale * b.factor = 1e-30` is far below `1e-20`, yet `a`'s raw buffer is
modified (from `[0]` to `[1e-30]`). -/
theorem operatorFunctions_iadd_tiny_counterexample :
    |(1 / 10 ^ 30 : ℚ) * 1| < TINY ∧
    OperatorFunctions.iadd
        ⟨⟨[⟨0⟩], [1], [1], [0], ⟨0⟩, false, false⟩, [0], 1, false⟩
        ⟨⟨[⟨0⟩], [1], [1], [0], ⟨0⟩, false, false⟩, [1], 1, false⟩
        (1 / 10 ^ 30) =
      some ⟨⟨[⟨0⟩], [1], [1], [0], ⟨0⟩, false, false⟩, [1 / 10 ^ 30], 1,
        false⟩ ∧
    (1 / 10 ^ 30 : ℚ) ≠ 0 := by
  refine ⟨?_, ?_, by norm_num⟩
  · rw [mul_one, abs_of_pos (by norm_num)]
    norm_num [TINY]
  · norm_num [OperatorFunctions.iadd, normalizeFactor, MatrixFunctions.iadd]

/-- C3 (amended): `iadd` first normalizes `a.factor` to 1 by absorbing it
into the raw buffer, and its accumulation guard is exactly `scale != 0.0` —
not the `TINY` threshold; `tensor_product` and `product` fold the lazy
factors into the scale and return `c` unchanged exactly when
`|scale * a.factor * b.factor| < 1e-20` (`TINY`), running their block loops
otherwise. -/
theorem operatorFunctions_scale_guards (sf sq : ℤ → ℚ)
    (a b c : SparseMatrix) (scale : ℚ)
    (hn : a.info.quanta.length = b.info.quanta.length)
    (hm : a.data.length = b.data.length)
    (hc : c.factor = 1) :
    (normalizeFactor a).factor = 1 ∧
    (scale ≠ 0 → OperatorFunctions.iadd a b scale =
      some { normalizeFactor a with
        data := MatrixFunctions.iadd (normalizeFactor a).data b.data
          (scale * b.factor) }) ∧
    (scale = 0 → OperatorFunctions.iadd a b scale =
      some (normalizeFactor a)) ∧
    (|scale * a.factor * b.factor| < TINY →
      OperatorFunctions.tensor_product sf a b c scale = some c ∧
      OperatorFunctions.product sf sq a b c scale = some c) ∧
    (¬ |scale * a.factor * b.factor| < TINY →
      (b.info.quanta.length ≤ 3 →
        OperatorFunctions.tensor_product sf a b c scale =
          (OperatorFunctions.tpLoop sf a b c
              (scale * a.factor * b.factor)).map
            fun cd => { c with data := cd }) ∧
      OperatorFunctions.product sf sq a b c scale =
        (OperatorFunctions.prodLoop sf sq a b c
            (scale * a.factor * b.factor)).map
          fun cd => { c with data := cd }) := by
  refine ⟨?_, ?_, ?_, ?_, ?_⟩
  · unfold normalizeFactor
    split
    · rfl
    · next h => exact not_ne_iff.mp h
  · intro hs
    unfold OperatorFunctions.iadd
    rw [if_pos ⟨hn, hm⟩, if_pos hs]
  · intro hs
    unfold OperatorFunctions.iadd
    rw [if_pos ⟨hn, hm⟩, if_neg (by simpa using hs)]
  · intro ht
    constructor
    · unfold OperatorFunctions.tensor_product
      rw [if_pos hc, if_pos ht]
    · unfold OperatorFunctions.product
      rw [if_pos hc, if_pos ht]
  · intro ht
    constructor
    · intro hb
      unfold OperatorFunctions.tensor_product
      rw [if_pos hc, if_neg ht, if_pos hb]
    · unfold OperatorFunctions.product
      rw [if_pos hc, if_neg ht]

/-- Witness for the amended C3 at a concrete input: unit factors, unit
scale, trivial one-block operators. -/
theorem operatorFunctions_scale_guards_witness :
    (normalizeFactor mat₀).factor = 1 ∧
    ((1 : ℚ) ≠ 0 → OperatorFunctions.iadd mat₀ mat₀ 1 =
      some { normalizeFactor mat₀ with
        data := MatrixFunctions.iadd (normalizeFactor mat₀).data mat₀.data
          (1 * mat₀.factor) }) ∧
    ((1 : ℚ) = 0 → OperatorFunctions.iadd mat₀ mat₀ 1 =
      some (normalizeFactor mat₀)) ∧
    (|1 * mat₀.factor * mat₀.factor| < TINY →
      OperatorFunctions.tensor_product oneTab mat₀ mat₀ mat₀ 1 = some mat₀ ∧
      OperatorFunctions.product oneTab oneTab mat₀ mat₀ mat₀ 1 = some mat₀) ∧
    (¬ |1 * mat₀.factor * mat₀.factor| < TINY →
      (mat₀.info.quanta.length ≤ 3 →
        OperatorFunctions.tensor_product oneTab mat₀ mat₀ mat₀ 1 =
          (OperatorFunctions.tpLoop oneTab mat₀ mat₀ mat₀
              (1 * mat₀.factor * mat₀.factor)).map
            fun cd => { mat₀ with data := cd }) ∧
      OperatorFunctions.product oneTab oneTab mat₀ mat₀ mat₀ 1 =
        (OperatorFunctions.prodLoop oneTab oneTab mat₀ mat₀ mat₀
            (1 * mat₀.factor * mat₀.factor)).map
          fun cd => { mat₀ with data := cd }) :=
  operatorFunctions_scale_guards oneTab oneTab mat₀ mat₀ mat₀ 1 rfl rfl rfl

/-- Witness for C6 at a concrete input: one ket state, vacuum `dq`. -/
theorem sparseMatrixInfo_initialize_invariants_witness :
    (SparseMatrixInfo.initialized ⟨[(⟨0⟩, 1)], 1⟩ ⟨[(⟨0⟩, 1)], 1⟩ ⟨0⟩ false
        false).n_states_total.getD 0 0 = 0 ∧
    (∀ i, i + 1 < (SparseMatrixInfo.initialized ⟨[(⟨0⟩, 1)], 1⟩ ⟨[(⟨0⟩, 1)], 1⟩
        ⟨0⟩ false false).quanta.length →
      (SparseMatrixInfo.initialized ⟨[(⟨0⟩, 1)], 1⟩ ⟨[(⟨0⟩, 1)], 1⟩ ⟨0⟩ false
          false).n_states_total.getD (i + 1) 0 =
        (SparseMatrixInfo.initialized ⟨[(⟨0⟩, 1)], 1⟩ ⟨[(⟨0⟩, 1)], 1⟩ ⟨0⟩ false
            false).n_states_total.getD i 0 +
          (SparseMatrixInfo.initialized ⟨[(⟨0⟩, 1)], 1⟩ ⟨[(⟨0⟩, 1)], 1⟩ ⟨0⟩
              false false).n_states_bra.getD i 0 *
            (SparseMatrixInfo.initialized ⟨[(⟨0⟩, 1)], 1⟩ ⟨[(⟨0⟩, 1)], 1⟩ ⟨0⟩
                false false).n_states_ket.getD i 0) ∧
    (1 ≤ (SparseMatrixInfo.initialized ⟨[(⟨0⟩, 1)], 1⟩ ⟨[(⟨0⟩, 1)], 1⟩ ⟨0⟩
        false false).quanta.length →
      (SparseMatrixInfo.initialized ⟨[(⟨0⟩, 1)], 1⟩ ⟨[(⟨0⟩, 1)], 1⟩ ⟨0⟩ false
          false).get_total_memory =
        (SparseMatrixInfo.initialized ⟨[(⟨0⟩, 1)], 1⟩ ⟨[(⟨0⟩, 1)], 1⟩ ⟨0⟩ false
            false).n_states_total.getD
            ((SparseMatrixInfo.initialized ⟨[(⟨0⟩, 1)], 1⟩ ⟨[(⟨0⟩, 1)], 1⟩ ⟨0⟩
                false false).quanta.length - 1) 0 +
          (SparseMatrixInfo.initialized ⟨[(⟨0⟩, 1)], 1⟩ ⟨[(⟨0⟩, 1)], 1⟩ ⟨0⟩
              false false).n_states_bra.getD
              ((SparseMatrixInfo.initialized ⟨[(⟨0⟩, 1)], 1⟩ ⟨[(⟨0⟩, 1)], 1⟩
                  ⟨0⟩ false false).quanta.length - 1) 0 *
            (SparseMatrixInfo.initialized ⟨[(⟨0⟩, 1)], 1⟩ ⟨[(⟨0⟩, 1)], 1⟩ ⟨0⟩
                false false).n_states_ket.getD
                ((SparseMatrixInfo.initialized ⟨[(⟨0⟩, 1)], 1⟩ ⟨[(⟨0⟩, 1)], 1⟩
                    ⟨0⟩ false false).quanta.length - 1) 0) ∧
    List.Chain' (fun x y => x.data < y.data)
      (SparseMatrixInfo.initialized ⟨[(⟨0⟩, 1)], 1⟩ ⟨[(⟨0⟩, 1)], 1⟩ ⟨0⟩ false
        false).quanta :=
  sparseMatrixInfo_initialize_invariants ⟨[(⟨0⟩, 1)], 1⟩ ⟨[(⟨0⟩, 1)], 1⟩ ⟨0⟩
    false false _ rfl (by decide) (by decide) (by decide)

/-- C10: indexing a `SparseMatrix` by a quantum label absent from its
`SparseMatrixInfo` table is a fatal assertion failure, not a zero block:
`operator[](SpinLabel q)` forwards `info->find_state(q)`, which is `-1`
for an absent label, into `operator[](int idx)`, whose `assert(idx != -1)`
fails. -/
theorem sparseMatrix_absent_label_asserts (mat : SparseMatrix) (q : SpinLabel)
    (h : q ∉ mat.info.quanta) :
    mat.info.find_state q = -1 ∧ mat.block q = none := by
  have hf : mat.info.find_state q = -1 := by
    unfold SparseMatrixInfo.find_state
    have : mat.info.quanta.findIdx? (fun x => x = q) = none := by
      rw [List.findIdx?_eq_none_iff]
      intro x hx
      simp only [decide_eq_false_iff_not]
      exact fun hxq => h (hxq ▸ hx)
    rw [this]
  refine ⟨hf, ?_⟩
  unfold SparseMatrix.block SparseMatrix.blockIdx
  rw [hf, if_pos rfl]

/-- Witness for C10: a one-entry table holding only the vacuum label,
probed with a different label. -/
theorem sparseMatrix_absent_label_asserts_witness :
    SparseMatrixInfo.find_state ⟨[⟨0⟩], [1], [1], [0], ⟨0⟩, false, false⟩ ⟨1⟩ = -1 ∧
      SparseMatrix.block ⟨⟨[⟨0⟩], [1], [1], [0], ⟨0⟩, false, false⟩, [0], 1, false⟩
          ⟨1⟩ =
        none :=
  sparseMatrix_absent_label_asserts
    ⟨⟨[⟨0⟩], [1], [1], [0], ⟨0⟩, false, false⟩, [0], 1, false⟩ ⟨1⟩ (by decide)

end Block2
